import Mathlib

/-!
# Verification of the Airline-Management core (src/Airline_Managment.py)

Shallow embedding of the Python source. Conventions used throughout:

* Python `dict` is modelled as an insertion-ordered association list
  (`List (κ × α)`); assignment (`d[k] = v`) is `dinsert`, which updates the
  first binding in place when the key is present and appends otherwise, and
  `d[k]` / `k in d` are `alookup`.  Iteration over `dict.items()` iterates
  the list in order, matching Python 3.7+ insertion order.
* Python `list` is `List`; `list.append` is `++ [x]`, `list.remove` (which
  drops the first occurrence and raises `ValueError` when absent) is
  `List.erase` guarded by a membership test where the exception is
  observable; `collections.deque` used FIFO is also a `List` (`popleft`
  is pattern matching on the head).
* Machine-unbounded Python ints are `Int` where the source may decrement
  below zero (`booked_seats`, `capacity`), and `Nat` for the route weights
  `price`/`distance` (the spec restricts edge weights to non-negative
  values, and every claim about them is stated under that restriction).
* Identifier generation (`uuid.uuid4()`) and clock reads (`datetime.now()`)
  are external inputs per the spec ("identifier generation is an external
  collaborator's responsibility, injected into the core"); the fresh
  booking id and the booking time are therefore explicit arguments.
* Functions that can raise an uncaught Python exception return an outcome
  flag together with the state as it stands when the exception escapes.
-/

/-- Booking status; the source uses the strings "CONFIRMED", "CANCELLED",
"WAITLISTED". -/
inductive Status where
  | confirmed
  | waitlisted
  | cancelled
deriving DecidableEq, Repr

/-- `Flight.__init__`: routing fields plus the mutable booking state
(`booked_seats`, `passengers`, `waiting_list`) initialised empty by
`mkFlight` below. -/
structure Flight where
  flight_id : Nat
  origin : String
  destination : String
  departure_time : Nat
  arrival_time : Nat
  capacity : Int
  price : Nat
  distance : Nat
  booked_seats : Int
  passengers : List Nat
  waiting_list : List Nat
deriving DecidableEq, Repr

/-- A freshly constructed flight: `booked_seats = 0`, no passengers, empty
waiting list, exactly as in `Flight.__init__`. -/
def mkFlight (fid : Nat) (origin destination : String)
    (departure_time arrival_time : Nat) (capacity : Int)
    (price distance : Nat) : Flight :=
  { flight_id := fid, origin := origin, destination := destination,
    departure_time := departure_time, arrival_time := arrival_time,
    capacity := capacity, price := price, distance := distance,
    booked_seats := 0, passengers := [], waiting_list := [] }

/-- `Passenger`: the id is the key under which the record is stored. -/
structure Passenger where
  name : String
  email : String
  phone : String
  bookings : List Nat
deriving DecidableEq, Repr

/-- `Booking`: the booking id is the key under which the record is stored. -/
structure Booking where
  passenger_id : Nat
  flight_id : Nat
  booking_time : Nat
  status : Status
deriving DecidableEq, Repr

section AssocList

variable {κ α : Type} [DecidableEq κ]

/-- `d[k]` / `k in d` on a Python dict, as an association-list lookup. -/
def alookup : List (κ × α) → κ → Option α
  | [], _ => none
  | (k, v) :: t, x => if k = x then some v else alookup t x

/-- `d[k] = v` on a Python dict: replace the first binding of `k` in place
if present, append the new binding otherwise. -/
def dinsert : List (κ × α) → κ → α → List (κ × α)
  | [], k, v => [(k, v)]
  | (k', v') :: t, k, v =>
      if k' = k then (k, v) :: t else (k', v') :: dinsert t k v

@[simp] theorem alookup_nil (x : κ) : alookup ([] : List (κ × α)) x = none := rfl

@[simp] theorem alookup_cons (k : κ) (v : α) (t : List (κ × α)) (x : κ) :
    alookup ((k, v) :: t) x = if k = x then some v else alookup t x := rfl

@[simp] theorem dinsert_nil (k : κ) (v : α) :
    dinsert ([] : List (κ × α)) k v = [(k, v)] := rfl

@[simp] theorem dinsert_cons (k' : κ) (v' : α) (t : List (κ × α)) (k : κ) (v : α) :
    dinsert ((k', v') :: t) k v =
      if k' = k then (k, v) :: t else (k', v') :: dinsert t k v := rfl

theorem alookup_dinsert_self (l : List (κ × α)) (k : κ) (v : α) :
    alookup (dinsert l k v) k = some v := by
  induction l with
  | nil => simp
  | cons h t ih =>
      obtain ⟨k', v'⟩ := h
      by_cases hk : k' = k <;> simp [hk, ih]

theorem alookup_dinsert_ne (l : List (κ × α)) (k x : κ) (v : α) (hx : x ≠ k) :
    alookup (dinsert l k v) x = alookup l x := by
  have hkx : ¬ k = x := fun h => hx h.symm
  induction l with
  | nil => simp [hkx]
  | cons h t ih =>
      obtain ⟨k', v'⟩ := h
      by_cases hk : k' = k
      · subst hk
        simp [hkx]
      · simp only [dinsert_cons, if_neg hk, alookup_cons, ih]

theorem dinsert_of_absent (l : List (κ × α)) (k : κ) (v : α)
    (h : alookup l k = none) : dinsert l k v = l ++ [(k, v)] := by
  induction l with
  | nil => simp
  | cons hd t ih =>
      obtain ⟨k', v'⟩ := hd
      by_cases hk : k' = k
      · simp [hk] at h
      · simp only [dinsert_cons, if_neg hk, List.cons_append]
        rw [ih]
        simpa [hk] using h

theorem dinsert_self_of_lookup (l : List (κ × α)) (k : κ) (v : α)
    (h : alookup l k = some v) : dinsert l k v = l := by
  induction l with
  | nil => simp at h
  | cons hd t ih =>
      obtain ⟨k', v'⟩ := hd
      by_cases hk : k' = k
      · subst hk
        rw [alookup_cons, if_pos rfl, Option.some.injEq] at h
        simp [h]
      · rw [alookup_cons, if_neg hk] at h
        simp [hk, ih h]

/-- A present key is updated in place: the list splits at its first
binding, and `dinsert` replaces exactly that binding. -/
theorem alookup_some_split (l : List (κ × α)) (k : κ) (v : α)
    (h : alookup l k = some v) :
    ∃ pre post, l = pre ++ (k, v) :: post ∧ alookup pre k = none ∧
      dinsert l k = fun w => pre ++ (k, w) :: post := by
  induction l with
  | nil => simp at h
  | cons hd t ih =>
      obtain ⟨k', v'⟩ := hd
      by_cases hk : k' = k
      · subst hk
        rw [alookup_cons, if_pos rfl, Option.some.injEq] at h
        exact ⟨[], t, by simp [h], by simp, by funext w; simp⟩
      · rw [alookup_cons, if_neg hk] at h
        obtain ⟨pre, post, hl, hpre, hins⟩ := ih h
        refine ⟨(k', v') :: pre, post, by simp [hl], by simp [hk, hpre], ?_⟩
        funext w
        simp [hk, congrFun hins w]

theorem keys_dinsert_absent (l : List (κ × α)) (k : κ) (v : α)
    (h : alookup l k = none) :
    (dinsert l k v).map Prod.fst = l.map Prod.fst ++ [k] := by
  rw [dinsert_of_absent l k v h]
  simp

theorem keys_dinsert_present (l : List (κ × α)) (k : κ) (v w : α)
    (h : alookup l k = some w) :
    (dinsert l k v).map Prod.fst = l.map Prod.fst := by
  obtain ⟨pre, post, hl, hpre, hins⟩ := alookup_some_split l k w h
  rw [congrFun hins v, hl]
  simp

theorem alookup_eq_none_iff (l : List (κ × α)) (k : κ) :
    alookup l k = none ↔ k ∉ l.map Prod.fst := by
  induction l with
  | nil => simp
  | cons hd t ih =>
      obtain ⟨k', v'⟩ := hd
      by_cases hk : k' = k
      · subst hk
        simp
      · simp only [alookup_cons, if_neg hk, ih, List.map_cons, List.mem_cons]
        constructor
        · intro hnot hor
          rcases hor with hor | hor
          · exact hk hor.symm
          · exact hnot hor
        · intro hnot hmem
          exact hnot (Or.inr hmem)

theorem alookup_isSome_of_mem {l : List (κ × α)} {kv : κ × α} (h : kv ∈ l) :
    (alookup l kv.1).isSome := by
  induction l with
  | nil => simp at h
  | cons hd t ih =>
      obtain ⟨k', v'⟩ := hd
      rcases List.mem_cons.mp h with h1 | h1
      · subst h1
        simp
      · by_cases hk : k' = kv.1 <;> simp [hk, ih h1]

theorem mem_of_alookup_some {l : List (κ × α)} {k : κ} {v : α}
    (h : alookup l k = some v) : (k, v) ∈ l := by
  induction l with
  | nil => simp at h
  | cons hd t ih =>
      obtain ⟨k', v'⟩ := hd
      by_cases hk : k' = k
      · subst hk
        rw [alookup_cons, if_pos rfl, Option.some.injEq] at h
        simp [h]
      · rw [alookup_cons, if_neg hk] at h
        simp [ih h]

theorem alookup_of_mem_nodup {l : List (κ × α)} {kv : κ × α}
    (hnd : (l.map Prod.fst).Nodup) (h : kv ∈ l) :
    alookup l kv.1 = some kv.2 := by
  induction l with
  | nil => simp at h
  | cons hd t ih =>
      obtain ⟨k', v'⟩ := hd
      simp only [List.map_cons, List.nodup_cons] at hnd
      rcases List.mem_cons.mp h with h1 | h1
      · subst h1
        simp
      · have hk : ¬ k' = kv.1 := by
          intro he
          exact hnd.1 (he ▸ (List.mem_map.2 ⟨kv, h1, rfl⟩))
        simp [hk, ih hnd.2 h1]

end AssocList

/-! ## FlightSchedule (singly linked list ordered by departure time)

The linked list is modelled as the `List Flight` of its nodes from `head`
onwards.  `add_flight` mirrors the pointer walk of the source: a new node
is prepended when its key is strictly below the head key, and otherwise
inserted after the last node of the chain `head, n₁, n₂, …` in which every
node after the head has a key strictly below the new key. -/

namespace FlightSchedule

/-- The `while current.next and current.next.flight.departure_time <
flight.departure_time` walk followed by the splice, acting on the tail of
the list (everything after `current = head`). -/
def insertTail (fl : Flight) : List Flight → List Flight
  | [] => [fl]
  | x :: xs =>
      if x.departure_time < fl.departure_time then x :: insertTail fl xs
      else fl :: x :: xs

/-- `FlightSchedule.add_flight`. -/
def add_flight (fl : Flight) : List Flight → List Flight
  | [] => [fl]
  | h :: t =>
      if fl.departure_time < h.departure_time then fl :: h :: t
      else h :: insertTail fl t

/-- `FlightSchedule.display_schedule`: the node list from `head` onwards. -/
def display_schedule (sched : List Flight) : List Flight := sched

/-- `FlightSchedule.get_flights_from_airport`. -/
def get_flights_from_airport (sched : List Flight) (airport : String) :
    List Flight :=
  sched.filter (fun fl => fl.origin = airport)

end FlightSchedule

/-! ## AirportGraph -/

/-- A route record produced by `find_all_routes`: the dict
`{'path': …, 'stops': …, 'total_distance': …, 'total_price': …}`. -/
structure Route where
  path : List String
  stops : Nat
  total_distance : Nat
  total_price : Nat
deriving DecidableEq, Repr

/-- `set.add` on the known-airport set (membership is all that is ever
observed). -/
def addAirportSet (s : List String) (a : String) : List String :=
  if a ∈ s then s else a :: s

/-- `AirportGraph`: known airports, the adjacency `defaultdict(list)` of
flights keyed by origin, and the two write-only min-weight tables
(`self.distances` / `self.prices`, whose absent keys stand for
`float('inf')`). -/
structure AirportGraph where
  airports : List String
  flights : List (String × List Flight)
  distances : List ((String × String) × Nat)
  prices : List ((String × String) × Nat)
deriving DecidableEq, Repr

namespace AirportGraph

/-- `self.flights[a]` with the `defaultdict(list)` read default. -/
def adj (g : AirportGraph) (a : String) : List Flight :=
  (alookup g.flights a).getD []

/-- `AirportGraph.add_airport`. -/
def add_airport (g : AirportGraph) (a : String) : AirportGraph :=
  { g with airports := addAirportSet g.airports a }

/-- `tbl[o][d] = min(tbl[o][d], w)` against the `float('inf')` default. -/
def updMin (tbl : List ((String × String) × Nat)) (key : String × String)
    (w : Nat) : List ((String × String) × Nat) :=
  match alookup tbl key with
  | none => dinsert tbl key w
  | some w0 => dinsert tbl key (min w0 w)

/-- `AirportGraph.add_flight_route`. -/
def add_flight_route (g : AirportGraph) (fl : Flight) : AirportGraph :=
  { airports := addAirportSet (addAirportSet g.airports fl.origin) fl.destination,
    flights := dinsert g.flights fl.origin (adj g fl.origin ++ [fl]),
    distances := updMin g.distances (fl.origin, fl.destination) fl.distance,
    prices := updMin g.prices (fl.origin, fl.destination) fl.price }

/-- `flight.distance if criteria == 'distance' else flight.price`. -/
def edge_cost (criteria : String) (f : Flight) : Nat :=
  if criteria = "distance" then f.distance else f.price

/-! ### find_all_routes: bounded DFS over simple paths -/

/-- The recursive `dfs(current, destination, path, stops, total_distance,
total_price)` helper of `find_all_routes`; `path` already ends in
`current`, and the returned list is the `routes` accumulator in the order
the source appends to it.  The extra `fuel` argument is the structural
mirror of the source's termination measure: every call keeps
`stops + fuel = maxStops + 1`, so the fuel-exhausted arm sits strictly
behind the `stops > max_stops` prune and is unreachable (the guard fires
at `stops = maxStops + 1`, exactly when `fuel = 0`). -/
def dfs (g : AirportGraph) (destination : String) (maxStops : Nat) :
    Nat → String → List String → Nat → Nat → Nat → List Route
  | fuel, current, path, stops, td, tp =>
    if maxStops < stops then []
    else if current = destination ∧ 1 < path.length then
      [{ path := path, stops := stops, total_distance := td, total_price := tp }]
    else
      match fuel with
      | 0 => []
      | fuel1 + 1 =>
        (adj g current).flatMap fun f =>
          if f.destination ∈ path then []
          else dfs g destination maxStops fuel1 f.destination
            (path ++ [f.destination]) (stops + 1) (td + f.distance) (tp + f.price)

/-- `AirportGraph.find_all_routes`. -/
def find_all_routes (g : AirportGraph) (start endA : String) (maxStops : Nat) :
    List Route :=
  dfs g endA maxStops (maxStops + 1) start [start] 0 0 0

/-! ### dijkstra_shortest_path

`heapq` holds tuples `(cost, airport, path)`, compared lexicographically
by Python; `heappop` returns the least tuple.  The heap is modelled as the
multiset (list) of its elements together with `popMin`, which removes one
least element under the same lexicographic order — the popped value, and
hence the whole computation, matches the source (equal tuples are
indistinguishable values). -/

/-- A heap entry `(cost, current_airport, path)`. -/
abbrev DEntry : Type := Nat × String × List String

/-- Python `list < list` on paths (lexicographic). -/
def listLtStr : List String → List String → Bool
  | [], [] => false
  | [], _ :: _ => true
  | _ :: _, [] => false
  | a :: as, b :: bs => if a < b then true else if a = b then listLtStr as bs else false

/-- Python tuple comparison on heap entries. -/
def entryLt (a b : DEntry) : Bool :=
  if a.1 < b.1 then true
  else if a.1 = b.1 then
    if a.2.1 < b.2.1 then true
    else if a.2.1 = b.2.1 then listLtStr a.2.2 b.2.2
    else false
  else false

/-- The least entry of `e :: l` under `entryLt`. -/
def selMin (e : DEntry) (l : List DEntry) : DEntry :=
  l.foldl (fun m x => if entryLt x m then x else m) e

/-- `heapq.heappop`: remove and return one least entry. -/
def popMin : List DEntry → Option (DEntry × List DEntry)
  | [] => none
  | e :: es => some (selMin e es, (e :: es).erase (selMin e es))

/-- Upper bound on the number of edges leaving any one airport. -/
def totalEdges (g : AirportGraph) : Nat :=
  (g.flights.map fun kv => kv.2.length).sum

/-- Every airport the loop can ever pop or push. -/
def allNodes (g : AirportGraph) : List String :=
  g.airports ++ g.flights.flatMap fun kv => kv.2.map fun f => f.destination

/-- Enough iterations for the `while pq` loop to run to completion
(`dijkstra_fuel_sufficient` below shows it is never exhausted). -/
def bigFuel (g : AirportGraph) : Nat :=
  (allNodes g).length * (totalEdges g + 1) + 2

/-- The `while pq:` loop of `dijkstra_shortest_path`.  Outer `none` means
the fuel ran out (never reached from `bigFuel`); `some none` is the
`return None, float('inf')` fall-through; `some (some (path, cost))` is
the `return path, current_cost` exit. -/
def dijkstra_loop (g : AirportGraph) (endA criteria : String) :
    Nat → List DEntry → List String → Option (Option (List String × Nat))
  | 0, _, _ => none
  | fuel + 1, pq, visited =>
    match popMin pq with
    | none => some none
    | some (e, rest) =>
      if e.2.1 ∈ visited then dijkstra_loop g endA criteria fuel rest visited
      else
        let visited1 := e.2.1 :: visited
        if e.2.1 = endA then some (some (e.2.2, e.1))
        else
          let pushes := (adj g e.2.1).filterMap fun f =>
            if f.destination ∈ visited1 then none
            else some (e.1 + edge_cost criteria f, f.destination,
              e.2.2 ++ [f.destination])
          dijkstra_loop g endA criteria fuel (rest ++ pushes) visited1

/-- `AirportGraph.dijkstra_shortest_path`; `none` is the
`None, float('inf')` result. -/
def dijkstra_shortest_path (g : AirportGraph) (start endA criteria : String) :
    Option (List String × Nat) :=
  if start ∉ g.airports ∨ endA ∉ g.airports then none
  else
    match dijkstra_loop g endA criteria (bigFuel g) [(0, start, [start])] [] with
    | some r => r
    | none => none

end AirportGraph

/-! ## AirlineManagementSystem -/

/-- Outcome of `cancel_booking`: the source returns `False` ("Booking not
found."), returns `True`, or lets a `ValueError`/`KeyError` escape. -/
inductive CancelOut where
  | notFound
  | ok
  | raised
deriving DecidableEq, Repr

/-- The whole system state: graph, schedule and the three id-keyed maps. -/
structure AMS where
  airport_graph : AirportGraph
  flight_schedule : List Flight
  passengers : List (Nat × Passenger)
  bookings : List (Nat × Booking)
  flights : List (Nat × Flight)
deriving DecidableEq, Repr

namespace AMS

/-- `AirlineManagementSystem.__init__`. -/
def init : AMS :=
  { airport_graph := { airports := [], flights := [], distances := [], prices := [] },
    flight_schedule := [], passengers := [], bookings := [], flights := [] }

/-- `AirlineManagementSystem.add_airport`. -/
def add_airport (s : AMS) (code : String) : AMS :=
  { s with airport_graph := s.airport_graph.add_airport code }

/-- `AirlineManagementSystem.add_flight`: builds the flight and feeds the
id-keyed map, the schedule and the route graph.  No duplicate-id check is
present in the source. -/
def add_flight (s : AMS) (fid : Nat) (origin destination : String)
    (departure_time arrival_time : Nat) (capacity : Int)
    (price distance : Nat) : AMS :=
  let fl := mkFlight fid origin destination departure_time arrival_time
    capacity price distance
  { s with
    flights := dinsert s.flights fid fl,
    flight_schedule := FlightSchedule.add_flight fl s.flight_schedule,
    airport_graph := s.airport_graph.add_flight_route fl }

/-- `AirlineManagementSystem.register_passenger`; the generated id is an
injected input (see the header). -/
def register_passenger (s : AMS) (pid : Nat) (name email phone : String) :
    AMS :=
  let p : Passenger := { name := name, email := email, phone := phone, bookings := [] }
  { s with passengers := dinsert s.passengers pid p }

/-- `AirlineManagementSystem.book_flight`; the fresh booking id and the
`datetime.now()` timestamp are injected inputs.  Returns the booking id
(`None` when the passenger or flight is unknown) and the new state. -/
def book_flight (s : AMS) (passenger_id flight_id booking_id booking_time : Nat) :
    Option Nat × AMS :=
  match alookup s.passengers passenger_id with
  | none => (none, s)
  | some p =>
    match alookup s.flights flight_id with
    | none => (none, s)
    | some fl =>
      if fl.booked_seats < fl.capacity then
        let booking : Booking :=
          { passenger_id := passenger_id,
            flight_id := flight_id,
            booking_time := booking_time,
            status := Status.confirmed }
        let fl1 :=
          { fl with
              booked_seats := fl.booked_seats + 1,
              passengers := fl.passengers ++ [passenger_id] }
        let p1 := { p with bookings := p.bookings ++ [booking_id] }
        let s1 :=
          { s with
              bookings := dinsert s.bookings booking_id booking,
              flights := dinsert s.flights flight_id fl1,
              passengers := dinsert s.passengers passenger_id p1 }
        (some booking_id, s1)
      else
        let booking : Booking :=
          { passenger_id := passenger_id,
            flight_id := flight_id,
            booking_time := booking_time,
            status := Status.waitlisted }
        let fl1 := { fl with waiting_list := fl.waiting_list ++ [passenger_id] }
        let p1 := { p with bookings := p.bookings ++ [booking_id] }
        let s1 :=
          { s with
              bookings := dinsert s.bookings booking_id booking,
              flights := dinsert s.flights flight_id fl1,
              passengers := dinsert s.passengers passenger_id p1 }
        (some booking_id, s1)

/-- The promotion loop of `cancel_booking`: find the first booking (in
dict order) of the popped passenger for this flight whose status is
WAITLISTED and set it to CONFIRMED; `none` when the loop finds no match. -/
def confirm_first_waitlisted (h fid : Nat) :
    List (Nat × Booking) → Option (List (Nat × Booking))
  | [] => none
  | (k, b) :: t =>
      if b.passenger_id = h ∧ b.flight_id = fid ∧ b.status = Status.waitlisted
      then some ((k, { b with status := Status.confirmed }) :: t)
      else
        match confirm_first_waitlisted h fid t with
        | none => none
        | some t1 => some ((k, b) :: t1)

/-- The tail of `cancel_booking` common to all status branches:
`booking.status = "CANCELLED"` followed by
`passenger.bookings.remove(booking_id)` (which raises `ValueError` when
the id is absent, after the status write has already landed). -/
def finish_cancel (s : AMS) (booking_id : Nat) (b : Booking) (p : Passenger)
    (flights1 : List (Nat × Flight)) (bookings1 : List (Nat × Booking)) :
    CancelOut × AMS :=
  let bookings2 := dinsert bookings1 booking_id ({ b with status := Status.cancelled })
  if booking_id ∈ p.bookings then
    let p1 := { p with bookings := p.bookings.erase booking_id }
    let s1 :=
      { s with
          flights := flights1,
          bookings := bookings2,
          passengers := dinsert s.passengers b.passenger_id p1 }
    (CancelOut.ok, s1)
  else
    (CancelOut.raised, { s with flights := flights1, bookings := bookings2 })

/-- `AirlineManagementSystem.cancel_booking`.  The `raised` outcomes carry
the state exactly as the uncaught exception leaves it: the flight lookup
and passenger lookup raise `KeyError` before any mutation;
`flight.passengers.remove` raises `ValueError` after `booked_seats` was
already decremented; `passenger.bookings.remove` raises `ValueError` after
every other mutation has landed. -/
def cancel_booking (s : AMS) (booking_id : Nat) : CancelOut × AMS :=
  match alookup s.bookings booking_id with
  | none => (CancelOut.notFound, s)
  | some b =>
    match alookup s.flights b.flight_id with
    | none => (CancelOut.raised, s)
    | some fl =>
      match alookup s.passengers b.passenger_id with
      | none => (CancelOut.raised, s)
      | some p =>
        if b.status = Status.confirmed then
          let fl1 := { fl with booked_seats := fl.booked_seats - 1 }
          if b.passenger_id ∈ fl1.passengers then
            let fl2 := { fl1 with passengers := fl1.passengers.erase b.passenger_id }
            match fl2.waiting_list with
            | [] =>
                finish_cancel s booking_id b p
                  (dinsert s.flights b.flight_id fl2) s.bookings
            | h :: t =>
                let fl3 := { fl2 with waiting_list := t }
                match confirm_first_waitlisted h b.flight_id s.bookings with
                | some bs1 =>
                    let fl4 :=
                      { fl3 with
                          booked_seats := fl3.booked_seats + 1,
                          passengers := fl3.passengers ++ [h] }
                    finish_cancel s booking_id b p
                      (dinsert s.flights b.flight_id fl4) bs1
                | none =>
                    finish_cancel s booking_id b p
                      (dinsert s.flights b.flight_id fl3) s.bookings
          else
            (CancelOut.raised,
              { s with flights := dinsert s.flights b.flight_id fl1 })
        else if b.status = Status.waitlisted then
          let fl1 := { fl with waiting_list := fl.waiting_list.erase b.passenger_id }
          finish_cancel s booking_id b p
            (dinsert s.flights b.flight_id fl1) s.bookings
        else
          finish_cancel s booking_id b p s.flights s.bookings

end AMS

/-! ## Concrete fixtures used by the scenario claims -/

/-- The empty graph. -/
def emptyAirportGraph : AirportGraph :=
  { airports := [], flights := [], distances := [], prices := [] }

/-- Scenario B/C fixture: flight NYC→CHI, distance 790, price 300. -/
def flightNYCtoCHI : Flight := mkFlight 3 "NYC" "CHI" 900 1130 120 300 790

/-- Scenario B/C fixture: flight CHI→LAX, distance 1745, price 400. -/
def flightCHItoLAX : Flight := mkFlight 4 "CHI" "LAX" 1300 1530 120 400 1745

/-- The scenario graph whose only edges are NYC→CHI and CHI→LAX. -/
def scenarioGraph : AirportGraph :=
  AirportGraph.add_flight_route
    (AirportGraph.add_flight_route emptyAirportGraph flightNYCtoCHI) flightCHItoLAX

/-! ## C10: schedule ordering -/

/-- Ordered ascending by departure time. -/
def schedSorted (l : List Flight) : Prop :=
  l.Pairwise fun a b => a.departure_time ≤ b.departure_time

theorem mem_insertTail {fl x : Flight} {l : List Flight}
    (h : x ∈ FlightSchedule.insertTail fl l) : x = fl ∨ x ∈ l := by
  induction l with
  | nil =>
      rw [FlightSchedule.insertTail] at h
      exact Or.inl (List.mem_singleton.mp h)
  | cons y ys ih =>
      rw [FlightSchedule.insertTail] at h
      by_cases hy : y.departure_time < fl.departure_time
      · rw [if_pos hy] at h
        rcases List.mem_cons.mp h with h1 | h1
        · exact Or.inr (by simp [h1])
        · rcases ih h1 with h2 | h2
          · exact Or.inl h2
          · exact Or.inr (List.mem_cons_of_mem _ h2)
      · rw [if_neg hy] at h
        rcases List.mem_cons.mp h with h1 | h1
        · exact Or.inl h1
        · exact Or.inr h1

theorem insertTail_sorted {fl : Flight} {l : List Flight} (hs : schedSorted l) :
    schedSorted (FlightSchedule.insertTail fl l) := by
  induction l with
  | nil =>
      rw [FlightSchedule.insertTail]
      exact List.pairwise_singleton _ _
  | cons x xs ih =>
      rw [FlightSchedule.insertTail]
      rcases List.pairwise_cons.mp hs with ⟨hx, hxs⟩
      by_cases hlt : x.departure_time < fl.departure_time
      · rw [if_pos hlt]
        refine List.pairwise_cons.mpr ⟨?_, ih hxs⟩
        intro y hy
        rcases mem_insertTail hy with h1 | h1
        · exact h1 ▸ Nat.le_of_lt hlt
        · exact hx y h1
      · rw [if_neg hlt]
        refine List.pairwise_cons.mpr ⟨?_, hs⟩
        intro y hy
        rcases List.mem_cons.mp hy with h1 | h1
        · exact h1 ▸ Nat.le_of_not_lt hlt
        · exact Nat.le_trans (Nat.le_of_not_lt hlt) (hx y h1)

theorem add_flight_sorted {fl : Flight} {l : List Flight} (hs : schedSorted l) :
    schedSorted (FlightSchedule.add_flight fl l) := by
  cases l with
  | nil => exact List.pairwise_singleton _ _
  | cons h t =>
      rw [FlightSchedule.add_flight]
      rcases List.pairwise_cons.mp hs with ⟨hh, ht⟩
      by_cases hlt : fl.departure_time < h.departure_time
      · rw [if_pos hlt]
        refine List.pairwise_cons.mpr ⟨?_, hs⟩
        intro y hy
        rcases List.mem_cons.mp hy with h1 | h1
        · exact h1 ▸ Nat.le_of_lt hlt
        · exact Nat.le_trans (Nat.le_of_lt hlt) (hh y h1)
      · rw [if_neg hlt]
        refine List.pairwise_cons.mpr ⟨?_, insertTail_sorted ht⟩
        intro y hy
        rcases mem_insertTail hy with h1 | h1
        · exact h1 ▸ Nat.le_of_not_lt hlt
        · exact hh y h1

theorem foldl_add_flight_sorted (fls : List Flight) :
    ∀ sched : List Flight, schedSorted sched →
      schedSorted (fls.foldl (fun acc fl => FlightSchedule.add_flight fl acc) sched) := by
  induction fls with
  | nil => exact fun sched hs => hs
  | cons f fs ih =>
      intro sched hs
      exact ih _ (add_flight_sorted hs)

/-- C10 counterexample fixture: departure times 3, 5, 5 inserted in id
order 1, 2, 3. -/
def tieFlight1 : Flight := mkFlight 1 "AAA" "BBB" 3 9 100 10 10

/-- See `tieFlight1`. -/
def tieFlight2 : Flight := mkFlight 2 "AAA" "BBB" 5 9 100 10 10

/-- See `tieFlight1`. -/
def tieFlight3 : Flight := mkFlight 3 "AAA" "BBB" 5 9 100 10 10

/-- C10 (counterexample): the claim asserts that flights with equal
departure_time appear in insertion order.  Inserting flights 1 (dep 3),
2 (dep 5), 3 (dep 5) in that order yields the listing 1, 3, 2: the
later-inserted flight 3 is placed before flight 2 although both depart at
time 5, so the stable-tie part of the claim is false. -/
theorem c10_stable_tie_counterexample :
    (FlightSchedule.display_schedule
      (FlightSchedule.add_flight tieFlight3
        (FlightSchedule.add_flight tieFlight2
          (FlightSchedule.add_flight tieFlight1 [])))).map Flight.flight_id
        = [1, 3, 2] ∧
    ¬ ((FlightSchedule.display_schedule
      (FlightSchedule.add_flight tieFlight3
        (FlightSchedule.add_flight tieFlight2
          (FlightSchedule.add_flight tieFlight1 [])))).map Flight.flight_id
        = [1, 2, 3]) := by
  constructor
  · rfl
  · decide

/-- C10 (amended): for every sequence of `add_flight` calls starting from
the empty schedule, the full schedule listing is ordered by
`departure_time` ascending; flights with equal departure time need NOT
appear in insertion order (see `c10_stable_tie_counterexample`). -/
theorem c10_schedule_sorted (fls : List Flight) :
    schedSorted (FlightSchedule.display_schedule
      (fls.foldl (fun acc fl => FlightSchedule.add_flight fl acc) [])) :=
  foldl_add_flight_sorted fls [] List.Pairwise.nil

/-! ## C7: the bounded-stop scenario -/

/-- C7 (counterexample): on the two-edge scenario graph the claim asserts
`find_routes(NYC, LAX, max_stops=1)` returns the path [NYC, CHI, LAX];
the source prunes at `stops > max_stops` before recording, so a two-edge
path needs `max_stops ≥ 2` and the call returns the empty collection. -/
theorem c7_scenario_counterexample :
    AirportGraph.find_all_routes scenarioGraph "NYC" "LAX" 1 = [] ∧
    ¬ ((AirportGraph.find_all_routes scenarioGraph "NYC" "LAX" 1).map Route.path
        = [["NYC", "CHI", "LAX"]]) := by
  constructor
  · rfl
  · intro h
    rw [show AirportGraph.find_all_routes scenarioGraph "NYC" "LAX" 1 = [] from rfl] at h
    simp at h

/-- C7 (amended): `find_routes(NYC, LAX, max_stops=0)` returns the empty
collection, `find_routes(NYC, LAX, max_stops=1)` ALSO returns the empty
collection (a k-edge path is returned only when `k ≤ max_stops`, and the
only NYC→LAX path has two edges), and `find_routes(NYC, LAX, max_stops=2)`
returns exactly the two-edge path [NYC, CHI, LAX] with total distance 2535
and total price 700. -/
theorem c7_scenario_amended :
    AirportGraph.find_all_routes scenarioGraph "NYC" "LAX" 0 = [] ∧
    AirportGraph.find_all_routes scenarioGraph "NYC" "LAX" 1 = [] ∧
    AirportGraph.find_all_routes scenarioGraph "NYC" "LAX" 2 =
      [{ path := ["NYC", "CHI", "LAX"], stops := 2,
         total_distance := 2535, total_price := 700 }] := by
  exact ⟨rfl, rfl, rfl⟩

/-! ## C6: duplicate flight id -/

theorem length_insertTail (fl : Flight) (l : List Flight) :
    (FlightSchedule.insertTail fl l).length = l.length + 1 := by
  induction l with
  | nil => rfl
  | cons x xs ih =>
      rw [FlightSchedule.insertTail]
      by_cases hlt : x.departure_time < fl.departure_time
      · rw [if_pos hlt]
        simp [ih]
      · rw [if_neg hlt]
        simp

theorem length_add_flight (fl : Flight) (l : List Flight) :
    (FlightSchedule.add_flight fl l).length = l.length + 1 := by
  cases l with
  | nil => rfl
  | cons h t =>
      rw [FlightSchedule.add_flight]
      by_cases hlt : fl.departure_time < h.departure_time
      · rw [if_pos hlt]
        simp
      · rw [if_neg hlt]
        simp [length_insertTail]

theorem adj_add_flight_route_self (g : AirportGraph) (fl : Flight) :
    (g.add_flight_route fl).adj fl.origin = g.adj fl.origin ++ [fl] := by
  show (alookup (dinsert g.flights fl.origin (g.adj fl.origin ++ [fl])) fl.origin).getD [] = _
  rw [alookup_dinsert_self]
  rfl

/-- A concrete state holding one flight with id 1. -/
def dupStateOne : AMS :=
  AMS.add_flight AMS.init 1 "AAA" "BBB" 1 2 100 10 10

/-- `dupStateOne` after `add_flight` is called again with the same id 1. -/
def dupStateTwo : AMS :=
  AMS.add_flight dupStateOne 1 "AAA" "BBB" 1 2 100 10 10

/-- C6 (counterexample): the claim asserts that `addFlight` with an
already-present id fails with DuplicateId and leaves the flight map, the
schedule and the route graph unchanged.  The source has no duplicate
check: adding id 1 twice leaves a two-node schedule and a two-edge
adjacency list, so the state is NOT left unchanged. -/
theorem c6_duplicate_add_counterexample :
    dupStateTwo.flight_schedule.length = 2 ∧
    (dupStateTwo.airport_graph.adj "AAA").length = 2 ∧
    ¬ (dupStateTwo = dupStateOne) := by
  refine ⟨rfl, rfl, ?_⟩
  decide

/-- C6 (amended): `add_flight` performs no duplicate check.  When the id
is already present it does not fail: it replaces the id-keyed map entry
with the new flight, grows the departure-time schedule by one node (the
stale flight stays listed), and appends one more edge to the route-graph
adjacency list of the new flight's origin. -/
theorem c6_duplicate_add_overwrites (s : AMS) (fid : Nat)
    (origin destination : String) (dep arr : Nat) (cap : Int)
    (price dist : Nat) (fl0 : Flight)
    (hdup : alookup s.flights fid = some fl0) :
    alookup (s.add_flight fid origin destination dep arr cap price dist).flights
        fid = some (mkFlight fid origin destination dep arr cap price dist) ∧
    (s.add_flight fid origin destination dep arr cap price dist).flight_schedule.length
        = s.flight_schedule.length + 1 ∧
    ((s.add_flight fid origin destination dep arr cap price dist).airport_graph.adj
        origin).length = (s.airport_graph.adj origin).length + 1 := by
  refine ⟨?_, ?_, ?_⟩
  · exact alookup_dinsert_self _ _ _
  · exact length_add_flight _ _
  · show ((s.airport_graph.add_flight_route
      (mkFlight fid origin destination dep arr cap price dist)).adj origin).length = _
    have := adj_add_flight_route_self s.airport_graph
      (mkFlight fid origin destination dep arr cap price dist)
    rw [show (mkFlight fid origin destination dep arr cap price dist).origin
        = origin from rfl] at this
    rw [this]
    simp

/-- Closed instance of `c6_duplicate_add_overwrites` at the concrete
duplicate state. -/
theorem c6_duplicate_add_overwrites_witness :
    alookup dupStateTwo.flights 1 = some (mkFlight 1 "AAA" "BBB" 1 2 100 10 10) ∧
    dupStateTwo.flight_schedule.length = dupStateOne.flight_schedule.length + 1 ∧
    (dupStateTwo.airport_graph.adj "AAA").length =
      (dupStateOne.airport_graph.adj "AAA").length + 1 :=
  c6_duplicate_add_overwrites dupStateOne 1 "AAA" "BBB" 1 2 100 10 10
    (mkFlight 1 "AAA" "BBB" 1 2 100 10 10) (by rfl)

/-! ## C8: NotFound failures mutate nothing -/

/-- C8: cancelling an unknown booking id returns the NotFound result
(`False` after "Booking not found.") with the state untouched, and booking
with an unknown passenger id or unknown flight id returns the NotFound
result (`None`) with the state untouched. -/
theorem c8_notfound_no_mutation :
    (∀ (s : AMS) (bid : Nat), alookup s.bookings bid = none →
      s.cancel_booking bid = (CancelOut.notFound, s)) ∧
    (∀ (s : AMS) (pid fid nbid t : Nat),
      alookup s.passengers pid = none ∨ alookup s.flights fid = none →
      s.book_flight pid fid nbid t = (none, s)) := by
  constructor
  · intro s bid h
    rw [AMS.cancel_booking, h]
  · intro s pid fid nbid t h
    cases hp : alookup s.passengers pid with
    | none => rw [AMS.book_flight, hp]
    | some p =>
        rcases h with h | h
        · rw [hp] at h
          exact absurd h (by simp)
        · rw [AMS.book_flight, hp, h]

/-- Closed instance of `c8_notfound_no_mutation` on the empty system. -/
theorem c8_notfound_no_mutation_witness :
    AMS.cancel_booking AMS.init 5 = (CancelOut.notFound, AMS.init) ∧
    AMS.book_flight AMS.init 1 2 3 0 = (none, AMS.init) :=
  ⟨c8_notfound_no_mutation.1 AMS.init 5 rfl,
   c8_notfound_no_mutation.2 AMS.init 1 2 3 0 (Or.inl rfl)⟩

/-! ## Scenario A fixtures (capacity 1, passengers A = 1 and B = 2) -/

/-- A system with airports NYC/LAX, one capacity-1 flight (id 10) and two
registered passengers (ids 1 and 2), built through the public operations. -/
def capOneState : AMS :=
  AMS.register_passenger
    (AMS.register_passenger
      (AMS.add_flight
        (AMS.add_airport (AMS.add_airport AMS.init "NYC") "LAX")
        10 "NYC" "LAX" 800 1100 1 500 2445)
      1 "Alice" "a@x" "111")
    2 "Bob" "b@x" "222"

/-- `capOneState` after passenger 1 books (Confirmed, booking id 100) and
passenger 2 books (Waitlisted, booking id 101). -/
def bookedAB : AMS :=
  (AMS.book_flight (AMS.book_flight capOneState 1 10 100 0).2 2 10 101 1).2

/-- `bookedAB` after booking 100 is cancelled once (passenger 2 promoted). -/
def cancelledA : AMS := (AMS.cancel_booking bookedAB 100).2

/-! ## C5: cancelling an already-cancelled booking -/

/-- C5 (code behaviour at the failing input): after booking 100 has been
cancelled once, calling `cancel_booking` on it again does not produce an
AlreadyCancelled failure result: the source has no guard, falls through
both status branches, and `passenger.bookings.remove(booking_id)` raises
an uncaught `ValueError` (the id was removed by the first cancel).  The
escaped state equals the pre-call state, and the booking is still
Cancelled. -/
theorem c5_double_cancel_raises :
    (AMS.cancel_booking cancelledA 100).1 = CancelOut.raised ∧
    (AMS.cancel_booking cancelledA 100).2 = cancelledA ∧
    (alookup cancelledA.bookings 100).map Booking.status = some Status.cancelled := by
  refine ⟨rfl, ?_, rfl⟩
  rfl

/-! ## C9: book-then-cancel round trip -/

/-- C9: booking a passenger on a flight and immediately cancelling the
booking just created, when the flight's waitlist is empty at the time of
the cancel, restores `booked_seats` to its pre-book value. -/
theorem c9_book_cancel_roundtrip (s : AMS) (pid fid bid t : Nat)
    (p : Passenger) (fl : Flight)
    (hp : alookup s.passengers pid = some p)
    (hf : alookup s.flights fid = some fl)
    (hW : ∀ fl1, alookup (s.book_flight pid fid bid t).2.flights fid = some fl1 →
      fl1.waiting_list = []) :
    ∃ fl2, alookup ((s.book_flight pid fid bid t).2.cancel_booking bid).2.flights fid
        = some fl2 ∧ fl2.booked_seats = fl.booked_seats := by
  by_cases hav : fl.booked_seats < fl.capacity
  · simp only [AMS.book_flight, hp, hf, if_pos hav] at hW ⊢
    have hWe := hW _ (alookup_dinsert_self _ _ _)
    change fl.waiting_list = [] at hWe
    simp only [AMS.cancel_booking, alookup_dinsert_self, AMS.finish_cancel]
    simp [alookup_dinsert_self, hWe]
  · exfalso
    simp only [AMS.book_flight, hp, hf, if_neg hav] at hW
    have hWe := hW _ (alookup_dinsert_self _ _ _)
    change fl.waiting_list ++ [pid] = [] at hWe
    simp at hWe

/-- The state after a single fresh booking (id 200) on `capOneState`. -/
def capOneBookedOnce : AMS := (AMS.book_flight capOneState 1 10 200 5).2

/-- The flight record inside `capOneBookedOnce`. -/
def capOneFlightBooked : Flight :=
  (alookup capOneBookedOnce.flights 10).getD (mkFlight 0 "x" "x" 0 0 0 0 0)

/-- Closed instance of `c9_book_cancel_roundtrip` on `capOneState`. -/
theorem c9_book_cancel_roundtrip_witness :
    ∃ fl2, alookup ((capOneState.book_flight 1 10 200 5).2.cancel_booking 200).2.flights 10
        = some fl2 ∧
      fl2.booked_seats = (mkFlight 10 "NYC" "LAX" 800 1100 1 500 2445).booked_seats :=
  c9_book_cancel_roundtrip capOneState 1 10 200 5
    { name := "Alice", email := "a@x", phone := "111", bookings := [] }
    (mkFlight 10 "NYC" "LAX" 800 1100 1 500 2445) rfl rfl
    (by
      intro fl1 h1
      rw [show alookup (capOneState.book_flight 1 10 200 5).2.flights 10
          = some capOneFlightBooked from rfl] at h1
      rw [← Option.some.inj h1]
      rfl)

/-- `capOneState` with a third passenger (id 3) registered. -/
def capOneState3 : AMS := AMS.register_passenger capOneState 3 "Carol" "c@x" "333"

/-- `capOneState3` after passenger 1 books (Confirmed, id 100), passenger
2 books (Waitlisted, id 101) and passenger 3 books (Waitlisted, id 102),
so the waitlist is [2, 3]. -/
def bookedABC : AMS :=
  (AMS.book_flight
    (AMS.book_flight (AMS.book_flight capOneState3 1 10 100 0).2 2 10 101 1).2
    3 10 102 2).2

/-- `bookedABC` after booking 100 is cancelled (head passenger 2 is the
one promoted, passenger 3 stays waitlisted). -/
def cancelledA3 : AMS := (AMS.cancel_booking bookedABC 100).2

/-! ## C2: FIFO waitlist promotion on cancelling a Confirmed booking -/

theorem filter_singleton_split {α : Type} (l : List α) (p : α → Bool) (a : α)
    (h : l.filter p = [a]) :
    ∃ pre post, l = pre ++ a :: post ∧ (∀ x ∈ pre, ¬ p x = true) ∧
      (∀ x ∈ post, ¬ p x = true) := by
  induction l with
  | nil => simp at h
  | cons x xs ih =>
      by_cases hx : p x = true
      · rw [List.filter_cons_of_pos hx] at h
        obtain ⟨hxa, hrest⟩ := List.cons.inj h
        refine ⟨[], xs, by simp [hxa], by simp, ?_⟩
        intro y hy
        exact List.filter_eq_nil_iff.mp hrest y hy
      · rw [List.filter_cons_of_neg hx] at h
        obtain ⟨pre, post, hl, hpre, hpost⟩ := ih h
        refine ⟨x :: pre, post, by simp [hl], ?_, hpost⟩
        intro y hy
        rcases List.mem_cons.mp hy with h1 | h1
        · exact h1 ▸ hx
        · exact hpre y h1

theorem cfw_of_split (h fid : Nat) (pre post : List (Nat × Booking))
    (kh : Nat) (bh : Booking)
    (hpre : ∀ x ∈ pre, ¬ (x.2.passenger_id = h ∧ x.2.flight_id = fid ∧
      x.2.status = Status.waitlisted))
    (hWb : bh.passenger_id = h ∧ bh.flight_id = fid ∧
      bh.status = Status.waitlisted) :
    AMS.confirm_first_waitlisted h fid (pre ++ (kh, bh) :: post)
      = some (pre ++ (kh, { bh with status := Status.confirmed }) :: post) := by
  induction pre with
  | nil =>
      rw [List.nil_append, AMS.confirm_first_waitlisted, if_pos hWb]
      simp
  | cons x xs ih =>
      obtain ⟨k1, b1⟩ := x
      rw [List.cons_append, AMS.confirm_first_waitlisted,
        if_neg (hpre (k1, b1) (List.mem_cons_self _ _))]
      rw [ih (fun y hy => hpre y (List.mem_cons_of_mem _ hy))]
      simp

theorem alookup_replace_ne {α : Type} (pre post : List (Nat × α)) (kh k : Nat)
    (x y : α) (hne : ¬ k = kh) :
    alookup (pre ++ (kh, x) :: post) k = alookup (pre ++ (kh, y) :: post) k := by
  have hne2 : ¬ kh = k := fun hc => hne hc.symm
  induction pre with
  | nil => simp [hne2]
  | cons z zs ih =>
      obtain ⟨k1, v1⟩ := z
      by_cases hk : k1 = k <;> simp [hk, ih]

/-- C2: (general part) in any state whose booking keys are distinct, where
booking `bid` is Confirmed for a flight whose waitlist head is `h`, where
the cancelled passenger is on the confirmed list and the booking is on the
passenger's list, and where every waitlisted passenger of the flight holds
exactly one Waitlisted booking for it, `cancel_booking bid` succeeds,
turns `bid` Cancelled, promotes exactly the head passenger's unique
Waitlisted booking to Confirmed (no other booking changes), pops the head
off the waitlist, and leaves `booked_seats` unchanged.  (in particular):
Scenario A — with capacity 1, after A books (Confirmed) and B books
(Waitlisted), cancelling A's booking leaves A Cancelled, B Confirmed,
`booked_seats = 1`, waitlist empty; and with waitlist [P1, P2] it is P1
(the longer-waiting passenger) that is promoted, leaving waitlist [P2]. -/
theorem c2_waitlist_promotion :
    (∀ (s : AMS) (bid : Nat) (b : Booking) (fl : Flight) (p : Passenger)
      (h : Nat) (wtail : List Nat),
      (s.bookings.map Prod.fst).Nodup →
      alookup s.bookings bid = some b →
      b.status = Status.confirmed →
      alookup s.flights b.flight_id = some fl →
      alookup s.passengers b.passenger_id = some p →
      b.passenger_id ∈ fl.passengers →
      fl.waiting_list = h :: wtail →
      (∀ q ∈ fl.waiting_list,
        (s.bookings.filter fun kb => decide (kb.2.passenger_id = q ∧
          kb.2.flight_id = b.flight_id ∧
          kb.2.status = Status.waitlisted)).length = 1) →
      bid ∈ p.bookings →
      ∃ kh bh, alookup s.bookings kh = some bh ∧
        bh.passenger_id = h ∧ bh.flight_id = b.flight_id ∧
        bh.status = Status.waitlisted ∧
        (s.cancel_booking bid).1 = CancelOut.ok ∧
        (∀ k, alookup (s.cancel_booking bid).2.bookings k =
          if k = bid then some { b with status := Status.cancelled }
          else if k = kh then some { bh with status := Status.confirmed }
          else alookup s.bookings k) ∧
        (∃ fl4, alookup (s.cancel_booking bid).2.flights b.flight_id = some fl4 ∧
          fl4.booked_seats = fl.booked_seats ∧
          fl4.waiting_list = wtail ∧
          fl4.passengers = fl.passengers.erase b.passenger_id ++ [h])) ∧
    ((alookup cancelledA.bookings 100).map Booking.status
        = some Status.cancelled ∧
      (alookup cancelledA.bookings 101).map Booking.status
        = some Status.confirmed ∧
      (alookup cancelledA.flights 10).map Flight.booked_seats = some 1 ∧
      (alookup cancelledA.flights 10).map Flight.waiting_list = some []) ∧
    ((alookup cancelledA3.bookings 101).map Booking.status
        = some Status.confirmed ∧
      (alookup cancelledA3.bookings 102).map Booking.status
        = some Status.waitlisted ∧
      (alookup cancelledA3.flights 10).map Flight.waiting_list = some [3]) := by
  refine ⟨?_, ⟨rfl, rfl, rfl, rfl⟩, ⟨rfl, rfl, rfl⟩⟩
  intro s bid b fl p h wtail hkeys hb hst hf hp hmem hq huniq hbp
  have hhead : h ∈ fl.waiting_list := by
    rw [hq]
    exact List.mem_cons_self _ _
  have hfil := huniq h hhead
  obtain ⟨a, ha⟩ : ∃ a, s.bookings.filter (fun kb => decide (kb.2.passenger_id = h ∧
      kb.2.flight_id = b.flight_id ∧ kb.2.status = Status.waitlisted)) = [a] := by
    cases hcase : s.bookings.filter (fun kb => decide (kb.2.passenger_id = h ∧
        kb.2.flight_id = b.flight_id ∧ kb.2.status = Status.waitlisted)) with
    | nil => rw [hcase] at hfil; simp at hfil
    | cons y ys =>
        rw [hcase] at hfil
        simp at hfil
        exact ⟨y, by rw [hfil]⟩
  obtain ⟨kh, bh⟩ := a
  obtain ⟨pre, post, hsplit, hpre, hpost⟩ :=
    filter_singleton_split s.bookings _ _ ha
  have hWb : bh.passenger_id = h ∧ bh.flight_id = b.flight_id ∧
      bh.status = Status.waitlisted := by
    have : (kh, bh) ∈ s.bookings.filter (fun kb => decide (kb.2.passenger_id = h ∧
        kb.2.flight_id = b.flight_id ∧ kb.2.status = Status.waitlisted)) := by
      rw [ha]
      exact List.mem_singleton.mpr rfl
    have := List.of_mem_filter this
    simpa using this
  have hprenot : ∀ x ∈ pre, ¬ (x.2.passenger_id = h ∧ x.2.flight_id = b.flight_id ∧
      x.2.status = Status.waitlisted) := by
    intro x hx hcon
    exact hpre x hx (by simpa using hcon)
  have hcfw : AMS.confirm_first_waitlisted h b.flight_id s.bookings
      = some (pre ++ (kh, { bh with status := Status.confirmed }) :: post) := by
    rw [hsplit]
    exact cfw_of_split h b.flight_id pre post kh bh hprenot hWb
  have hlook_kh : alookup s.bookings kh = some bh := by
    rw [hsplit] at hkeys ⊢
    exact alookup_of_mem_nodup hkeys
      (show ((kh, bh) : Nat × Booking) ∈ pre ++ (kh, bh) :: post by simp)
  refine ⟨kh, bh, hlook_kh, hWb.1, hWb.2.1, hWb.2.2, ?_⟩
  have hrun : s.cancel_booking bid = (CancelOut.ok,
      { s with
          flights := dinsert s.flights b.flight_id
            ({ fl with booked_seats := fl.booked_seats - 1 + 1, passengers := fl.passengers.erase b.passenger_id ++ [h], waiting_list := wtail }),
          bookings := dinsert (pre ++ (kh, { bh with status := Status.confirmed }) :: post) bid ({ b with status := Status.cancelled }),
          passengers := dinsert s.passengers b.passenger_id
            ({ p with bookings := p.bookings.erase bid }) }) := by
    simp only [AMS.cancel_booking, hb, hf, hp, hst, hq, hcfw, AMS.finish_cancel]
    simp [hmem, hbp]
  rw [hrun]
  refine ⟨rfl, ?_, ?_⟩
  · intro k
    by_cases hk : k = bid
    · rw [hk]
      rw [if_pos rfl]
      exact alookup_dinsert_self _ _ _
    · rw [if_neg hk]
      show alookup (dinsert (pre ++ (kh, { bh with status := Status.confirmed }) :: post) bid ({ b with status := Status.cancelled })) k = _
      rw [alookup_dinsert_ne _ _ _ _ hk]
      by_cases hk2 : k = kh
      · rw [if_pos hk2, hk2]
        have hnd2 : ((pre ++ (kh, { bh with status := Status.confirmed })
            :: post).map Prod.fst).Nodup := by
          have : (pre ++ (kh, { bh with status := Status.confirmed })
              :: post).map Prod.fst = (pre ++ (kh, bh) :: post).map Prod.fst := by
            simp
          rw [this, ← hsplit]
          exact hkeys
        exact alookup_of_mem_nodup hnd2
          (show ((kh, { bh with status := Status.confirmed }) : Nat × Booking)
            ∈ pre ++ (kh, { bh with status := Status.confirmed }) :: post by simp)
      · rw [if_neg hk2, hsplit]
        exact alookup_replace_ne pre post kh k _ _ hk2
  · refine ⟨_, alookup_dinsert_self _ _ _, ?_, rfl, rfl⟩
    show fl.booked_seats - 1 + 1 = fl.booked_seats
    omega

/-- Closed instance of the general part of `c2_waitlist_promotion` at the
Scenario-A state `bookedAB`. -/
theorem c2_waitlist_promotion_witness :
    ∃ kh bh, alookup bookedAB.bookings kh = some bh ∧
      bh.passenger_id = 2 ∧ bh.flight_id = 10 ∧
      bh.status = Status.waitlisted ∧
      (bookedAB.cancel_booking 100).1 = CancelOut.ok ∧
      (∀ k, alookup (bookedAB.cancel_booking 100).2.bookings k =
        if k = 100 then some { passenger_id := 1, flight_id := 10, booking_time := 0, status := Status.cancelled }
        else if k = kh then some { bh with status := Status.confirmed }
        else alookup bookedAB.bookings k) ∧
      (∃ fl4, alookup (bookedAB.cancel_booking 100).2.flights 10 = some fl4 ∧
        fl4.booked_seats = 1 ∧
        fl4.waiting_list = [] ∧
        fl4.passengers = [1].erase 1 ++ [2]) :=
  c2_waitlist_promotion.1 bookedAB 100
    { passenger_id := 1, flight_id := 10, booking_time := 0,
      status := Status.confirmed }
    { flight_id := 10, origin := "NYC", destination := "LAX",
      departure_time := 800, arrival_time := 1100, capacity := 1,
      price := 500, distance := 2445, booked_seats := 1,
      passengers := [1], waiting_list := [2] }
    { name := "Alice", email := "a@x", phone := "111", bookings := [100] }
    2 [] (by decide) rfl rfl rfl rfl (by decide) rfl (by decide) (by decide)

/-! ## C4: find_all_routes returns exactly the bounded simple paths -/

/-- `FlightChain g a fs b`: the flight list `fs` is a chain of legs from `a`
to `b`, each leg taken from the adjacency list of the airport it leaves. -/
def FlightChain (g : AirportGraph) : String → List Flight → String → Prop
  | a, [], b => a = b
  | a, f :: fs, b => f ∈ g.adj a ∧ FlightChain g f.destination fs b

/-- The airport sequence visited by a chain starting at `a`. -/
def chainPath (a : String) (fs : List Flight) : List String :=
  a :: fs.map fun f => f.destination

/-- Total distance of a chain. -/
def sumDist (fs : List Flight) : Nat := (fs.map fun f => f.distance).sum

/-- Total price of a chain. -/
def sumPrice (fs : List Flight) : Nat := (fs.map fun f => f.price).sum

theorem chain_end_mem {g : AirportGraph} :
    ∀ {fs : List Flight} {a b : String}, FlightChain g a fs b → fs ≠ [] →
      b ∈ fs.map fun f => f.destination := by
  intro fs
  induction fs with
  | nil => intro a b hch hne; exact absurd rfl hne
  | cons f fs1 ih =>
      intro a b hch hne
      obtain ⟨hadj, hch1⟩ := hch
      cases hfs1 : fs1 with
      | nil =>
          rw [hfs1] at hch1
          have : f.destination = b := hch1
          simp [this]
      | cons f2 fs2 =>
          have hmem : b ∈ fs1.map fun f => f.destination := by
            refine ih hch1 ?_
            rw [hfs1]
            simp
          rw [hfs1] at hmem
          simp only [List.map_cons, List.mem_cons] at hmem ⊢
          exact Or.inr hmem

/-- Membership characterisation of the `dfs` accumulator, generalised over
all its arguments.  `fuel` is tied to its call-site value
`maxStops + 1 - stops`, `path` is nonempty, duplicate-free and ends in
`current` (all invariants of the source's call tree). -/
theorem dfs_mem_iff (g : AirportGraph) (endA : String) (maxStops : Nat) :
    ∀ (fuel : Nat) (current : String) (path : List String) (stops td tp : Nat),
      stops + fuel = maxStops + 1 →
      (∃ pre, path = pre ++ [current]) →
      path.Nodup →
      ∀ r : Route, r ∈ AirportGraph.dfs g endA maxStops fuel current path stops td tp ↔
        ∃ fs, FlightChain g current fs endA ∧
          r.path = path ++ fs.map (fun f => f.destination) ∧
          r.stops = stops + fs.length ∧
          r.total_distance = td + sumDist fs ∧
          r.total_price = tp + sumPrice fs ∧
          stops + fs.length ≤ maxStops ∧
          1 < path.length + fs.length ∧
          (path ++ fs.map fun f => f.destination).Nodup := by
  intro fuel
  induction fuel with
  | zero =>
      intro current path stops td tp hfuel hlast hnd r
      rw [AirportGraph.dfs]
      have hguard : maxStops < stops := by omega
      rw [if_pos hguard]
      simp only [List.not_mem_nil, false_iff]
      rintro ⟨fs, -, -, -, -, -, hle, -, -⟩
      omega
  | succ fuel1 ih =>
      intro current path stops td tp hfuel hlast hnd r
      rw [AirportGraph.dfs]
      have hguard : ¬ maxStops < stops := by omega
      rw [if_neg hguard]
      by_cases hrec : current = endA ∧ 1 < path.length
      · rw [if_pos hrec]
        simp only [List.mem_singleton]
        constructor
        · intro hr
          refine ⟨[], hrec.1, ?_, ?_, ?_, ?_, ?_, ?_, ?_⟩ <;>
            simp [hr, sumDist, sumPrice, hnd]
          · omega
          · omega
        · rintro ⟨fs, hch, hpath, hstops, htd, htp, hle, hlen, hndall⟩
          cases hfs : fs with
          | nil =>
              rw [hfs] at hpath hstops htd htp
              cases r with
              | mk rp rs rtd rtp =>
                  simp only [Route.mk.injEq]
                  simp only at hpath hstops htd htp
                  refine ⟨?_, hstops, ?_, ?_⟩
                  · simpa using hpath
                  · simpa [sumDist] using htd
                  · simpa [sumPrice] using htp
          | cons f fs1 =>
              exfalso
              rw [hfs] at hch hndall
              have hend : endA ∈ (f :: fs1).map fun fl => fl.destination :=
                chain_end_mem hch (by simp)
              have hendpath : endA ∈ path := by
                obtain ⟨pre, hpre⟩ := hlast
                rw [hpre, hrec.1.symm]  -- hmm may fail; fixed below if so
                simp
              rcases List.nodup_append.mp hndall with ⟨-, -, hdisj⟩
              exact hdisj hendpath hend
      · rw [if_neg hrec]
        have hmemflat : ∀ r : Route,
            r ∈ (g.adj current).flatMap (fun f =>
              if f.destination ∈ path then []
              else AirportGraph.dfs g endA maxStops fuel1 f.destination
                (path ++ [f.destination]) (stops + 1) (td + f.distance)
                (tp + f.price)) ↔
            ∃ f ∈ g.adj current, ¬ f.destination ∈ path ∧
              r ∈ AirportGraph.dfs g endA maxStops fuel1 f.destination
                (path ++ [f.destination]) (stops + 1) (td + f.distance)
                (tp + f.price) := by
          intro r1
          rw [List.mem_flatMap]
          constructor
          · rintro ⟨f, hf, hr1⟩
            by_cases hdm : f.destination ∈ path
            · rw [if_pos hdm] at hr1
              simp at hr1
            · rw [if_neg hdm] at hr1
              exact ⟨f, hf, hdm, hr1⟩
          · rintro ⟨f, hf, hdm, hr1⟩
            refine ⟨f, hf, ?_⟩
            rw [if_neg hdm]
            exact hr1
        rw [hmemflat]
        constructor
        · rintro ⟨f, hf, hdm, hr1⟩
          have hiff := ih f.destination (path ++ [f.destination]) (stops + 1)
            (td + f.distance) (tp + f.price) (by omega) ⟨path, rfl⟩
            (by
              rw [List.nodup_append]
              exact ⟨hnd, List.nodup_singleton _, by
                intro x hx hx1
                rw [List.mem_singleton] at hx1
                exact hdm (hx1 ▸ hx)⟩)
          rcases (hiff r).mp hr1 with ⟨fs1, hch1, hpath1, hstops1, htd1, htp1,
            hle1, hlen1, hnd1⟩
          simp only [List.length_append, List.length_singleton] at hle1 hlen1
          refine ⟨f :: fs1, ⟨hf, hch1⟩, ?_, ?_, ?_, ?_, ?_, ?_, ?_⟩
          · rw [hpath1]
            simp
          · rw [hstops1]
            simp only [List.length_cons]
            omega
          · rw [htd1]
            simp only [sumDist, List.map_cons, List.sum_cons]
            omega
          · rw [htp1]
            simp only [sumPrice, List.map_cons, List.sum_cons]
            omega
          · simp only [List.length_cons]
            omega
          · simp only [List.length_cons]
            omega
          · rw [show path ++ (f :: fs1).map (fun fl => fl.destination)
              = (path ++ [f.destination]) ++ fs1.map (fun fl => fl.destination) by simp]
            exact hnd1
        · rintro ⟨fs, hch, hpath, hstops, htd, htp, hle, hlen, hndall⟩
          cases hfs : fs with
          | nil =>
              exfalso
              rw [hfs] at hch hlen
              have hcur : current = endA := hch
              simp only [List.length_nil] at hlen
              exact hrec ⟨hcur, by omega⟩
          | cons f fs1 =>
              rw [hfs] at hch hpath hstops htd htp hle hlen hndall
              obtain ⟨hf, hch1⟩ := hch
              have hnd2 : ((path ++ [f.destination]) ++
                  fs1.map fun fl => fl.destination).Nodup := by
                rw [show (path ++ [f.destination]) ++
                    (fs1.map fun fl => fl.destination)
                    = path ++ (f :: fs1).map (fun fl => fl.destination) by simp]
                exact hndall
              have hdm : ¬ f.destination ∈ path := by
                intro hmem
                rcases List.nodup_append.mp hndall with ⟨-, -, hdisj⟩
                exact hdisj hmem (by simp)
              refine ⟨f, hf, hdm, ?_⟩
              have hiff := ih f.destination (path ++ [f.destination]) (stops + 1)
                (td + f.distance) (tp + f.price) (by omega) ⟨path, rfl⟩
                (List.Nodup.of_append_left hnd2)
              refine (hiff r).mpr ⟨fs1, hch1, ?_, ?_, ?_, ?_, ?_, ?_, hnd2⟩
              · rw [hpath]
                simp
              · rw [hstops]
                simp only [List.length_cons]
                omega
              · rw [htd]
                simp only [sumDist, List.map_cons, List.sum_cons]
                omega
              · rw [htp]
                simp only [sumPrice, List.map_cons, List.sum_cons]
                omega
              · simp only [List.length_cons] at hle
                omega
              · simp only [List.length_append, List.length_cons] at hlen ⊢
                omega

/-- C4: `find_all_routes` returns exactly the simple paths (no airport
repeated) from origin to destination whose edge count is between 1 and
`max_stops`: every returned route is realised by a flight chain with the
stated stop count and distance/price sums and a duplicate-free airport
sequence, no qualifying chain is omitted, no zero-edge route appears, and
the result is the empty collection precisely when no qualifying chain
exists (no error value is involved). -/
theorem c4_find_routes_complete (g : AirportGraph) (start endA : String)
    (maxStops : Nat) :
    (∀ r : Route, r ∈ g.find_all_routes start endA maxStops ↔
      ∃ fs : List Flight, FlightChain g start fs endA ∧
        r.path = chainPath start fs ∧
        r.stops = fs.length ∧
        r.total_distance = sumDist fs ∧
        r.total_price = sumPrice fs ∧
        1 ≤ fs.length ∧ fs.length ≤ maxStops ∧
        (chainPath start fs).Nodup) ∧
    (g.find_all_routes start endA maxStops = [] ↔
      ¬ ∃ fs : List Flight, FlightChain g start fs endA ∧ 1 ≤ fs.length ∧
        fs.length ≤ maxStops ∧ (chainPath start fs).Nodup) := by
  have hmain : ∀ r : Route, r ∈ g.find_all_routes start endA maxStops ↔
      ∃ fs : List Flight, FlightChain g start fs endA ∧
        r.path = chainPath start fs ∧
        r.stops = fs.length ∧
        r.total_distance = sumDist fs ∧
        r.total_price = sumPrice fs ∧
        1 ≤ fs.length ∧ fs.length ≤ maxStops ∧
        (chainPath start fs).Nodup := by
    intro r
    have hiff := dfs_mem_iff g endA maxStops (maxStops + 1) start [start] 0 0 0
      (by omega) ⟨[], rfl⟩ (List.nodup_singleton _)
    rw [AirportGraph.find_all_routes, hiff r]
    constructor
    · rintro ⟨fs, hch, hpath, hstops, htd, htp, hle, hlen, hndall⟩
      refine ⟨fs, hch, ?_, by omega, by omega, by omega, ?_, by omega, ?_⟩
      · rw [hpath]
        rfl
      · simp only [List.length_singleton] at hlen
        omega
      · exact hndall
    · rintro ⟨fs, hch, hpath, hstops, htd, htp, hge, hle, hndall⟩
      refine ⟨fs, hch, ?_, by omega, by omega, by omega, by omega, ?_, ?_⟩
      · rw [hpath]
        rfl
      · simp only [List.length_singleton]
        omega
      · exact hndall
  refine ⟨hmain, ?_⟩
  constructor
  · intro hnil
    rintro ⟨fs, hch, hge, hle, hndp⟩
    have := (hmain { path := chainPath start fs, stops := fs.length, total_distance := sumDist fs, total_price := sumPrice fs }).mpr ⟨fs, hch, rfl, rfl, rfl, rfl, hge, hle, hndp⟩
    rw [hnil] at this
    simp at this
  · intro hnone
    rw [List.eq_nil_iff_forall_not_mem]
    intro r hr
    rcases (hmain r).mp hr with ⟨fs, hch, -, -, -, -, hge, hle, hndp⟩
    exact hnone ⟨fs, hch, hge, hle, hndp⟩

/-! ## C1: the per-flight booking invariant

The inductive invariant ties each flight's mutable fields to the booking
map: `booked_seats` equals the confirmed-passenger count, stays within
capacity, the confirmed list is (as a multiset) the passenger ids of the
flight's CONFIRMED bookings, the waiting list those of its WAITLISTED
bookings, and each passenger's booking list holds exactly the ids of that
passenger's non-CANCELLED bookings. -/

/-- Passenger ids of the CONFIRMED bookings of flight `fid`, in map
order. -/
def confirmedFor (bs : List (Nat × Booking)) (fid : Nat) : List Nat :=
  (bs.filter fun kb => decide (kb.2.flight_id = fid ∧
    kb.2.status = Status.confirmed)).map fun kb => kb.2.passenger_id

/-- Passenger ids of the WAITLISTED bookings of flight `fid`. -/
def waitlistedFor (bs : List (Nat × Booking)) (fid : Nat) : List Nat :=
  (bs.filter fun kb => decide (kb.2.flight_id = fid ∧
    kb.2.status = Status.waitlisted)).map fun kb => kb.2.passenger_id

/-- Booking ids of the non-CANCELLED bookings of passenger `pid`. -/
def activeFor (bs : List (Nat × Booking)) (pid : Nat) : List Nat :=
  (bs.filter fun kb => decide (kb.2.passenger_id = pid ∧
    ¬ kb.2.status = Status.cancelled)).map Prod.fst

theorem confirmedFor_append (l1 l2 : List (Nat × Booking)) (fid : Nat) :
    confirmedFor (l1 ++ l2) fid = confirmedFor l1 fid ++ confirmedFor l2 fid := by
  simp [confirmedFor]

theorem waitlistedFor_append (l1 l2 : List (Nat × Booking)) (fid : Nat) :
    waitlistedFor (l1 ++ l2) fid = waitlistedFor l1 fid ++ waitlistedFor l2 fid := by
  simp [waitlistedFor]

theorem activeFor_append (l1 l2 : List (Nat × Booking)) (pid : Nat) :
    activeFor (l1 ++ l2) pid = activeFor l1 pid ++ activeFor l2 pid := by
  simp [activeFor]

theorem confirmedFor_cons (k : Nat) (b : Booking) (t : List (Nat × Booking))
    (fid : Nat) :
    confirmedFor ((k, b) :: t) fid =
      if b.flight_id = fid ∧ b.status = Status.confirmed
      then b.passenger_id :: confirmedFor t fid else confirmedFor t fid := by
  by_cases hc : b.flight_id = fid ∧ b.status = Status.confirmed
  · simp [confirmedFor, List.filter_cons, hc]
  · simp [confirmedFor, List.filter_cons, hc]

theorem waitlistedFor_cons (k : Nat) (b : Booking) (t : List (Nat × Booking))
    (fid : Nat) :
    waitlistedFor ((k, b) :: t) fid =
      if b.flight_id = fid ∧ b.status = Status.waitlisted
      then b.passenger_id :: waitlistedFor t fid else waitlistedFor t fid := by
  by_cases hc : b.flight_id = fid ∧ b.status = Status.waitlisted
  · simp [waitlistedFor, List.filter_cons, hc]
  · simp [waitlistedFor, List.filter_cons, hc]

theorem activeFor_cons (k : Nat) (b : Booking) (t : List (Nat × Booking))
    (pid : Nat) :
    activeFor ((k, b) :: t) pid =
      if b.passenger_id = pid ∧ ¬ b.status = Status.cancelled
      then k :: activeFor t pid else activeFor t pid := by
  by_cases hc : b.passenger_id = pid ∧ ¬ b.status = Status.cancelled
  · simp [activeFor, List.filter_cons, hc]
  · simp [activeFor, List.filter_cons, hc]

theorem count_confirmedFor_middle (pre post : List (Nat × Booking)) (k : Nat)
    (b : Booking) (fid q : Nat) :
    (confirmedFor (pre ++ (k, b) :: post) fid).count q =
      (confirmedFor pre fid).count q + (confirmedFor post fid).count q +
      (if b.flight_id = fid ∧ b.status = Status.confirmed ∧ b.passenger_id = q
       then 1 else 0) := by
  rw [confirmedFor_append, List.count_append, confirmedFor_cons]
  by_cases hc : b.flight_id = fid ∧ b.status = Status.confirmed
  · rw [if_pos hc]
    by_cases hq : b.passenger_id = q
    · rw [if_pos ⟨hc.1, hc.2, hq⟩]
      simp [List.count_cons, hq]
      omega
    · rw [if_neg (by
        rintro ⟨-, -, hq2⟩
        exact hq hq2)]
      simp [List.count_cons, hq]
  · rw [if_neg hc, if_neg (by
      rintro ⟨h1, h2, -⟩
      exact hc ⟨h1, h2⟩)]
    omega

theorem count_waitlistedFor_middle (pre post : List (Nat × Booking)) (k : Nat)
    (b : Booking) (fid q : Nat) :
    (waitlistedFor (pre ++ (k, b) :: post) fid).count q =
      (waitlistedFor pre fid).count q + (waitlistedFor post fid).count q +
      (if b.flight_id = fid ∧ b.status = Status.waitlisted ∧ b.passenger_id = q
       then 1 else 0) := by
  rw [waitlistedFor_append, List.count_append, waitlistedFor_cons]
  by_cases hc : b.flight_id = fid ∧ b.status = Status.waitlisted
  · rw [if_pos hc]
    by_cases hq : b.passenger_id = q
    · rw [if_pos ⟨hc.1, hc.2, hq⟩]
      simp [List.count_cons, hq]
      omega
    · rw [if_neg (by
        rintro ⟨-, -, hq2⟩
        exact hq hq2)]
      simp [List.count_cons, hq]
  · rw [if_neg hc, if_neg (by
      rintro ⟨h1, h2, -⟩
      exact hc ⟨h1, h2⟩)]
    omega

theorem count_activeFor_middle (pre post : List (Nat × Booking)) (k : Nat)
    (b : Booking) (pid q : Nat) :
    (activeFor (pre ++ (k, b) :: post) pid).count q =
      (activeFor pre pid).count q + (activeFor post pid).count q +
      (if b.passenger_id = pid ∧ ¬ b.status = Status.cancelled ∧ k = q
       then 1 else 0) := by
  rw [activeFor_append, List.count_append, activeFor_cons]
  by_cases hc : b.passenger_id = pid ∧ ¬ b.status = Status.cancelled
  · rw [if_pos hc]
    by_cases hq : k = q
    · rw [if_pos ⟨hc.1, hc.2, hq⟩]
      simp [List.count_cons, hq]
      omega
    · rw [if_neg (by
        rintro ⟨-, -, hq2⟩
        exact hq hq2)]
      simp [List.count_cons, hq]
  · rw [if_neg hc, if_neg (by
      rintro ⟨h1, h2, -⟩
      exact hc ⟨h1, h2⟩)]
    omega

/-- The inductive system invariant behind claim C1. -/
structure SysInv (s : AMS) : Prop where
  bkeys : (s.bookings.map Prod.fst).Nodup
  fkeys : (s.flights.map Prod.fst).Nodup
  pkeys : (s.passengers.map Prod.fst).Nodup
  brefs : ∀ kb ∈ s.bookings, (alookup s.flights kb.2.flight_id).isSome ∧
    (alookup s.passengers kb.2.passenger_id).isSome
  fseats : ∀ kf ∈ s.flights, kf.2.booked_seats = (kf.2.passengers.length : Int)
  fcap : ∀ kf ∈ s.flights, kf.2.booked_seats ≤ kf.2.capacity
  fconf : ∀ kf ∈ s.flights, kf.2.passengers.Perm (confirmedFor s.bookings kf.1)
  fwait : ∀ kf ∈ s.flights, kf.2.waiting_list.Perm (waitlistedFor s.bookings kf.1)
  pact : ∀ kp ∈ s.passengers, kp.2.bookings.Perm (activeFor s.bookings kp.1)

/-- One `book_flight` or `cancel_booking` call (the generated booking id
of a book is fresh, as uuid ids are). -/
inductive BCStep : AMS → AMS → Prop where
  | book (s : AMS) (pid fid bid t : Nat)
      (hfresh : alookup s.bookings bid = none) :
      BCStep s (s.book_flight pid fid bid t).2
  | cancel (s : AMS) (bid : Nat) : BCStep s (s.cancel_booking bid).2

/-- Any finite sequence of book/cancel operations. -/
def ReachBC : AMS → AMS → Prop := Relation.ReflTransGen BCStep

theorem isSome_dinsert_of_isSome {α : Type} (l : List (Nat × α)) (k x : Nat)
    (v : α) (h : (alookup l x).isSome) :
    (alookup (dinsert l k v) x).isSome := by
  by_cases hx : x = k
  · rw [hx, alookup_dinsert_self]
    rfl
  · rw [alookup_dinsert_ne _ _ _ _ hx]
    exact h

theorem keys_nodup_mid {α : Type} (pre post : List (Nat × α)) (k : Nat) (v : α)
    (hnd : (((pre ++ (k, v) :: post)).map Prod.fst).Nodup) :
    (∀ kv ∈ pre, kv.1 ≠ k) ∧ (∀ kv ∈ post, kv.1 ≠ k) := by
  rw [List.map_append, List.map_cons, List.nodup_append] at hnd
  obtain ⟨-, hnd2, hdisj⟩ := hnd
  constructor
  · intro kv hkv he
    exact hdisj (List.mem_map.mpr ⟨kv, hkv, rfl⟩) (by simp [he])
  · intro kv hkv he
    rw [List.nodup_cons] at hnd2
    exact hnd2.1 (he ▸ List.mem_map.mpr ⟨kv, hkv, rfl⟩)

/-- Evaluating `book_flight` in the seats-available branch. -/
theorem book_flight_run_confirmed (s : AMS) (pid fid bid t : Nat)
    (p : Passenger) (fl : Flight)
    (hp : alookup s.passengers pid = some p)
    (hf : alookup s.flights fid = some fl)
    (hav : fl.booked_seats < fl.capacity) :
    s.book_flight pid fid bid t = (some bid,
      { s with
          bookings := dinsert s.bookings bid
            ({ passenger_id := pid, flight_id := fid, booking_time := t, status := Status.confirmed }),
          flights := dinsert s.flights fid
            ({ fl with booked_seats := fl.booked_seats + 1, passengers := fl.passengers ++ [pid] }),
          passengers := dinsert s.passengers pid
            ({ p with bookings := p.bookings ++ [bid] }) }) := by
  simp only [AMS.book_flight, hp, hf, if_pos hav]

/-- Evaluating `book_flight` in the flight-full branch. -/
theorem book_flight_run_waitlisted (s : AMS) (pid fid bid t : Nat)
    (p : Passenger) (fl : Flight)
    (hp : alookup s.passengers pid = some p)
    (hf : alookup s.flights fid = some fl)
    (hav : ¬ fl.booked_seats < fl.capacity) :
    s.book_flight pid fid bid t = (some bid,
      { s with
          bookings := dinsert s.bookings bid
            ({ passenger_id := pid, flight_id := fid, booking_time := t, status := Status.waitlisted }),
          flights := dinsert s.flights fid
            ({ fl with waiting_list := fl.waiting_list ++ [pid] }),
          passengers := dinsert s.passengers pid
            ({ p with bookings := p.bookings ++ [bid] }) }) := by
  simp only [AMS.book_flight, hp, hf, if_neg hav]

theorem confirmedFor_snoc (bs : List (Nat × Booking)) (bid : Nat) (bk : Booking)
    (fid : Nat) :
    confirmedFor (bs ++ [(bid, bk)]) fid = confirmedFor bs fid ++
      (if bk.flight_id = fid ∧ bk.status = Status.confirmed
       then [bk.passenger_id] else []) := by
  rw [confirmedFor_append]
  by_cases h : bk.flight_id = fid ∧ bk.status = Status.confirmed
  · simp [confirmedFor_cons, h, confirmedFor]
  · simp [confirmedFor_cons, h, confirmedFor]

theorem waitlistedFor_snoc (bs : List (Nat × Booking)) (bid : Nat) (bk : Booking)
    (fid : Nat) :
    waitlistedFor (bs ++ [(bid, bk)]) fid = waitlistedFor bs fid ++
      (if bk.flight_id = fid ∧ bk.status = Status.waitlisted
       then [bk.passenger_id] else []) := by
  rw [waitlistedFor_append]
  by_cases h : bk.flight_id = fid ∧ bk.status = Status.waitlisted
  · simp [waitlistedFor_cons, h, waitlistedFor]
  · simp [waitlistedFor_cons, h, waitlistedFor]

theorem activeFor_snoc (bs : List (Nat × Booking)) (bid : Nat) (bk : Booking)
    (pid : Nat) :
    activeFor (bs ++ [(bid, bk)]) pid = activeFor bs pid ++
      (if bk.passenger_id = pid ∧ ¬ bk.status = Status.cancelled
       then [bid] else []) := by
  rw [activeFor_append]
  by_cases h : bk.passenger_id = pid ∧ ¬ bk.status = Status.cancelled
  · simp [activeFor_cons, h, activeFor]
  · simp [activeFor_cons, h, activeFor]

theorem isSome_iff_mem_keys {α : Type} (l : List (Nat × α)) (x : Nat) :
    (alookup l x).isSome ↔ x ∈ l.map Prod.fst := by
  cases hl : alookup l x with
  | none =>
      constructor
      · intro h
        simp at h
      · intro h
        exact absurd h ((alookup_eq_none_iff l x).mp hl)
  | some v =>
      constructor
      · intro h
        exact List.mem_map.mpr ⟨(x, v), mem_of_alookup_some hl, rfl⟩
      · intro h
        rfl

/-- `book_flight` with a fresh booking id preserves the invariant. -/
theorem sysInv_book (s : AMS) (pid fid bid t : Nat) (hInv : SysInv s)
    (hfresh : alookup s.bookings bid = none) :
    SysInv (s.book_flight pid fid bid t).2 := by
  cases hp : alookup s.passengers pid with
  | none =>
      have hrun : s.book_flight pid fid bid t = (none, s) := by
        simp only [AMS.book_flight, hp]
      rw [hrun]
      exact hInv
  | some p =>
  cases hf : alookup s.flights fid with
  | none =>
      have hrun : s.book_flight pid fid bid t = (none, s) := by
        simp only [AMS.book_flight, hp, hf]
      rw [hrun]
      exact hInv
  | some fl =>
  obtain ⟨preF, postF, hFeq, -, hFins⟩ := alookup_some_split s.flights fid fl hf
  obtain ⟨preP, postP, hPeq, -, hPins⟩ :=
    alookup_some_split s.passengers pid p hp
  have hFkeys := hInv.fkeys
  have hPkeys := hInv.pkeys
  rw [hFeq] at hFkeys
  rw [hPeq] at hPkeys
  obtain ⟨hpreFK, hpostFK⟩ := keys_nodup_mid preF postF fid fl hFkeys
  obtain ⟨hprePK, hpostPK⟩ := keys_nodup_mid preP postP pid p hPkeys
  have hbidmem : bid ∉ s.bookings.map Prod.fst :=
    (alookup_eq_none_iff s.bookings bid).mp hfresh
  have hFkeysEq : ∀ w : Flight, (preF ++ (fid, w) :: postF).map Prod.fst
      = s.flights.map Prod.fst := by
    intro w
    rw [hFeq]
    simp
  have hPkeysEq : ∀ w : Passenger, (preP ++ (pid, w) :: postP).map Prod.fst
      = s.passengers.map Prod.fst := by
    intro w
    rw [hPeq]
    simp
  by_cases hav : fl.booked_seats < fl.capacity
  · rw [book_flight_run_confirmed s pid fid bid t p fl hp hf hav]
    rw [dinsert_of_absent s.bookings bid _ hfresh, congrFun hFins _,
      congrFun hPins _]
    constructor
    ·
      simp only [List.map_append, List.map_cons, List.map_nil]
      rw [List.nodup_append]
      exact ⟨hInv.bkeys, List.nodup_singleton _, by
        intro x hx hx1
        rw [List.mem_singleton] at hx1
        exact hbidmem (hx1 ▸ hx)⟩
    ·
      simp only []
      rw [hFkeysEq]
      exact hInv.fkeys
    ·
      simp only []
      rw [hPkeysEq]
      exact hInv.pkeys
    ·
      simp only []
      intro kb hkb
      rcases List.mem_append.mp hkb with hkb1 | hkb1
      · obtain ⟨h1, h2⟩ := hInv.brefs kb hkb1
        constructor
        · rw [isSome_iff_mem_keys, hFkeysEq]
          exact (isSome_iff_mem_keys _ _).mp h1
        · rw [isSome_iff_mem_keys, hPkeysEq]
          exact (isSome_iff_mem_keys _ _).mp h2
      · rw [List.mem_singleton] at hkb1
        rw [hkb1]
        constructor
        · rw [isSome_iff_mem_keys]
          show fid ∈ _
          simp
        · rw [isSome_iff_mem_keys]
          show pid ∈ _
          simp
    ·
      simp only []
      intro kf hkf
      rcases List.mem_append.mp hkf with hkf1 | hkf1
      · exact hInv.fseats kf (by rw [hFeq]; exact List.mem_append_left _ hkf1)
      · rcases List.mem_cons.mp hkf1 with hkf2 | hkf2
        · rw [hkf2]
          have hold := hInv.fseats (fid, fl) (by rw [hFeq]; simp)
          simp only at hold ⊢
          rw [hold]
          push_cast
          simp
        · exact hInv.fseats kf
            (by rw [hFeq]; exact List.mem_append_right _ (List.mem_cons_of_mem _ hkf2))
    ·
      simp only []
      intro kf hkf
      rcases List.mem_append.mp hkf with hkf1 | hkf1
      · exact hInv.fcap kf (by rw [hFeq]; exact List.mem_append_left _ hkf1)
      · rcases List.mem_cons.mp hkf1 with hkf2 | hkf2
        · rw [hkf2]
          simp only
          omega
        · exact hInv.fcap kf
            (by rw [hFeq]; exact List.mem_append_right _ (List.mem_cons_of_mem _ hkf2))
    ·
      simp only []
      intro kf hkf
      rw [confirmedFor_snoc]
      rcases List.mem_append.mp hkf with hkf1 | hkf1
      · rw [if_neg (by
          rintro ⟨he, -⟩
          exact hpreFK kf hkf1 he.symm), List.append_nil]
        exact hInv.fconf kf (by rw [hFeq]; exact List.mem_append_left _ hkf1)
      · rcases List.mem_cons.mp hkf1 with hkf2 | hkf2
        · rw [hkf2]
          rw [if_pos (show _ ∧ _ by exact ⟨rfl, rfl⟩)]
          exact (hInv.fconf (fid, fl) (by rw [hFeq]; simp)).append_right _
        · rw [if_neg (by
            rintro ⟨he, -⟩
            exact hpostFK kf hkf2 he.symm), List.append_nil]
          exact hInv.fconf kf
            (by rw [hFeq]; exact List.mem_append_right _ (List.mem_cons_of_mem _ hkf2))
    ·
      simp only []
      intro kf hkf
      rw [waitlistedFor_snoc]
      rw [if_neg (by
        rintro ⟨-, hco⟩
        exact absurd hco (by simp)), List.append_nil]
      rcases List.mem_append.mp hkf with hkf1 | hkf1
      · exact hInv.fwait kf (by rw [hFeq]; exact List.mem_append_left _ hkf1)
      · rcases List.mem_cons.mp hkf1 with hkf2 | hkf2
        · rw [hkf2]
          exact hInv.fwait (fid, fl) (by rw [hFeq]; simp)
        · exact hInv.fwait kf
            (by rw [hFeq]; exact List.mem_append_right _ (List.mem_cons_of_mem _ hkf2))
    ·
      simp only []
      intro kp hkp
      rw [activeFor_snoc]
      rcases List.mem_append.mp hkp with hkp1 | hkp1
      · rw [if_neg (by
          rintro ⟨he, -⟩
          exact hprePK kp hkp1 he.symm), List.append_nil]
        exact hInv.pact kp (by rw [hPeq]; exact List.mem_append_left _ hkp1)
      · rcases List.mem_cons.mp hkp1 with hkp2 | hkp2
        · rw [hkp2]
          rw [if_pos (show _ ∧ _ by exact ⟨rfl, by simp⟩)]
          exact (hInv.pact (pid, p) (by rw [hPeq]; simp)).append_right _
        · rw [if_neg (by
            rintro ⟨he, -⟩
            exact hpostPK kp hkp2 he.symm), List.append_nil]
          exact hInv.pact kp
            (by rw [hPeq]; exact List.mem_append_right _ (List.mem_cons_of_mem _ hkp2))
  · rw [book_flight_run_waitlisted s pid fid bid t p fl hp hf hav]
    rw [dinsert_of_absent s.bookings bid _ hfresh, congrFun hFins _,
      congrFun hPins _]
    constructor
    ·
      simp only [List.map_append, List.map_cons, List.map_nil]
      rw [List.nodup_append]
      exact ⟨hInv.bkeys, List.nodup_singleton _, by
        intro x hx hx1
        rw [List.mem_singleton] at hx1
        exact hbidmem (hx1 ▸ hx)⟩
    ·
      simp only []
      rw [hFkeysEq]
      exact hInv.fkeys
    ·
      simp only []
      rw [hPkeysEq]
      exact hInv.pkeys
    ·
      simp only []
      intro kb hkb
      rcases List.mem_append.mp hkb with hkb1 | hkb1
      · obtain ⟨h1, h2⟩ := hInv.brefs kb hkb1
        constructor
        · rw [isSome_iff_mem_keys, hFkeysEq]
          exact (isSome_iff_mem_keys _ _).mp h1
        · rw [isSome_iff_mem_keys, hPkeysEq]
          exact (isSome_iff_mem_keys _ _).mp h2
      · rw [List.mem_singleton] at hkb1
        rw [hkb1]
        constructor
        · rw [isSome_iff_mem_keys]
          show fid ∈ _
          simp
        · rw [isSome_iff_mem_keys]
          show pid ∈ _
          simp
    ·
      simp only []
      intro kf hkf
      rcases List.mem_append.mp hkf with hkf1 | hkf1
      · exact hInv.fseats kf (by rw [hFeq]; exact List.mem_append_left _ hkf1)
      · rcases List.mem_cons.mp hkf1 with hkf2 | hkf2
        · rw [hkf2]
          exact hInv.fseats (fid, fl) (by rw [hFeq]; simp)
        · exact hInv.fseats kf
            (by rw [hFeq]; exact List.mem_append_right _ (List.mem_cons_of_mem _ hkf2))
    ·
      simp only []
      intro kf hkf
      rcases List.mem_append.mp hkf with hkf1 | hkf1
      · exact hInv.fcap kf (by rw [hFeq]; exact List.mem_append_left _ hkf1)
      · rcases List.mem_cons.mp hkf1 with hkf2 | hkf2
        · rw [hkf2]
          exact hInv.fcap (fid, fl) (by rw [hFeq]; simp)
        · exact hInv.fcap kf
            (by rw [hFeq]; exact List.mem_append_right _ (List.mem_cons_of_mem _ hkf2))
    ·
      simp only []
      intro kf hkf
      rw [confirmedFor_snoc]
      rw [if_neg (by
        rintro ⟨-, hco⟩
        exact absurd hco (by simp)), List.append_nil]
      rcases List.mem_append.mp hkf with hkf1 | hkf1
      · exact hInv.fconf kf (by rw [hFeq]; exact List.mem_append_left _ hkf1)
      · rcases List.mem_cons.mp hkf1 with hkf2 | hkf2
        · rw [hkf2]
          exact hInv.fconf (fid, fl) (by rw [hFeq]; simp)
        · exact hInv.fconf kf
            (by rw [hFeq]; exact List.mem_append_right _ (List.mem_cons_of_mem _ hkf2))
    ·
      simp only []
      intro kf hkf
      rw [waitlistedFor_snoc]
      rcases List.mem_append.mp hkf with hkf1 | hkf1
      · rw [if_neg (by
          rintro ⟨he, -⟩
          exact hpreFK kf hkf1 he.symm), List.append_nil]
        exact hInv.fwait kf (by rw [hFeq]; exact List.mem_append_left _ hkf1)
      · rcases List.mem_cons.mp hkf1 with hkf2 | hkf2
        · rw [hkf2]
          rw [if_pos (show _ ∧ _ by exact ⟨rfl, rfl⟩)]
          exact (hInv.fwait (fid, fl) (by rw [hFeq]; simp)).append_right _
        · rw [if_neg (by
            rintro ⟨he, -⟩
            exact hpostFK kf hkf2 he.symm), List.append_nil]
          exact hInv.fwait kf
            (by rw [hFeq]; exact List.mem_append_right _ (List.mem_cons_of_mem _ hkf2))
    ·
      simp only []
      intro kp hkp
      rw [activeFor_snoc]
      rcases List.mem_append.mp hkp with hkp1 | hkp1
      · rw [if_neg (by
          rintro ⟨he, -⟩
          exact hprePK kp hkp1 he.symm), List.append_nil]
        exact hInv.pact kp (by rw [hPeq]; exact List.mem_append_left _ hkp1)
      · rcases List.mem_cons.mp hkp1 with hkp2 | hkp2
        · rw [hkp2]
          rw [if_pos (show _ ∧ _ by exact ⟨rfl, by simp⟩)]
          exact (hInv.pact (pid, p) (by rw [hPeq]; simp)).append_right _
        · rw [if_neg (by
            rintro ⟨he, -⟩
            exact hpostPK kp hkp2 he.symm), List.append_nil]
          exact hInv.pact kp
            (by rw [hPeq]; exact List.mem_append_right _ (List.mem_cons_of_mem _ hkp2))

theorem confirmedFor_replace (pre post : List (Nat × Booking)) (k : Nat)
    (b b1 : Booking) (fid : Nat)
    (hno : ¬ (b.flight_id = fid ∧ b.status = Status.confirmed))
    (hno1 : ¬ (b1.flight_id = fid ∧ b1.status = Status.confirmed)) :
    confirmedFor (pre ++ (k, b1) :: post) fid
      = confirmedFor (pre ++ (k, b) :: post) fid := by
  rw [confirmedFor_append, confirmedFor_append, confirmedFor_cons,
    confirmedFor_cons, if_neg hno, if_neg hno1]

theorem waitlistedFor_replace (pre post : List (Nat × Booking)) (k : Nat)
    (b b1 : Booking) (fid : Nat)
    (hno : ¬ (b.flight_id = fid ∧ b.status = Status.waitlisted))
    (hno1 : ¬ (b1.flight_id = fid ∧ b1.status = Status.waitlisted)) :
    waitlistedFor (pre ++ (k, b1) :: post) fid
      = waitlistedFor (pre ++ (k, b) :: post) fid := by
  rw [waitlistedFor_append, waitlistedFor_append, waitlistedFor_cons,
    waitlistedFor_cons, if_neg hno, if_neg hno1]

theorem activeFor_replace (pre post : List (Nat × Booking)) (k : Nat)
    (b b1 : Booking) (pid : Nat)
    (hiff : (b.passenger_id = pid ∧ ¬ b.status = Status.cancelled)
      ↔ (b1.passenger_id = pid ∧ ¬ b1.status = Status.cancelled)) :
    activeFor (pre ++ (k, b1) :: post) pid
      = activeFor (pre ++ (k, b) :: post) pid := by
  rw [activeFor_append, activeFor_append, activeFor_cons, activeFor_cons]
  by_cases hc : b.passenger_id = pid ∧ ¬ b.status = Status.cancelled
  · rw [if_pos hc, if_pos (hiff.mp hc)]
  · rw [if_neg hc, if_neg (fun hc1 => hc (hiff.mpr hc1))]

/-- Dropping a matching entry: the projection of the list holding the
matching booking permutes to the projected passenger consed onto the
projection of the list holding the non-matching replacement. -/
theorem confirmedFor_drop (pre post : List (Nat × Booking)) (k : Nat)
    (b b1 : Booking) (fid : Nat)
    (hyes : b.flight_id = fid ∧ b.status = Status.confirmed)
    (hno1 : ¬ (b1.flight_id = fid ∧ b1.status = Status.confirmed)) :
    (confirmedFor (pre ++ (k, b) :: post) fid).Perm
      (b.passenger_id :: confirmedFor (pre ++ (k, b1) :: post) fid) := by
  rw [confirmedFor_append, confirmedFor_append, confirmedFor_cons,
    confirmedFor_cons, if_pos hyes, if_neg hno1]
  exact List.perm_middle

theorem waitlistedFor_drop (pre post : List (Nat × Booking)) (k : Nat)
    (b b1 : Booking) (fid : Nat)
    (hyes : b.flight_id = fid ∧ b.status = Status.waitlisted)
    (hno1 : ¬ (b1.flight_id = fid ∧ b1.status = Status.waitlisted)) :
    (waitlistedFor (pre ++ (k, b) :: post) fid).Perm
      (b.passenger_id :: waitlistedFor (pre ++ (k, b1) :: post) fid) := by
  rw [waitlistedFor_append, waitlistedFor_append, waitlistedFor_cons,
    waitlistedFor_cons, if_pos hyes, if_neg hno1]
  exact List.perm_middle

theorem activeFor_drop (pre post : List (Nat × Booking)) (k : Nat)
    (b b1 : Booking) (pid : Nat)
    (hyes : b.passenger_id = pid ∧ ¬ b.status = Status.cancelled)
    (hno1 : ¬ (b1.passenger_id = pid ∧ ¬ b1.status = Status.cancelled)) :
    (activeFor (pre ++ (k, b) :: post) pid).Perm
      (k :: activeFor (pre ++ (k, b1) :: post) pid) := by
  rw [activeFor_append, activeFor_append, activeFor_cons, activeFor_cons,
    if_pos hyes, if_neg hno1]
  exact List.perm_middle

theorem cfw_none_forall (h fid : Nat) :
    ∀ l : List (Nat × Booking), AMS.confirm_first_waitlisted h fid l = none →
      ∀ x ∈ l, ¬ (x.2.passenger_id = h ∧ x.2.flight_id = fid ∧
        x.2.status = Status.waitlisted) := by
  intro l
  induction l with
  | nil =>
      intro hnone x hx
      simp at hx
  | cons kb t ih =>
      obtain ⟨k, b⟩ := kb
      intro hnone x hx
      rw [AMS.confirm_first_waitlisted] at hnone
      by_cases hc : b.passenger_id = h ∧ b.flight_id = fid ∧
          b.status = Status.waitlisted
      · rw [if_pos hc] at hnone
        exact absurd hnone (by simp)
      · rw [if_neg hc] at hnone
        rcases List.mem_cons.mp hx with hx1 | hx1
        · rw [hx1]
          exact hc
        · cases hcall : AMS.confirm_first_waitlisted h fid t with
          | none => exact ih hcall x hx1
          | some t1 =>
              rw [hcall] at hnone
              exact absurd hnone (by simp)

theorem cfw_some_split_general (h fid : Nat) :
    ∀ (l l1 : List (Nat × Booking)),
      AMS.confirm_first_waitlisted h fid l = some l1 →
      ∃ pre k b post, l = pre ++ (k, b) :: post ∧
        (b.passenger_id = h ∧ b.flight_id = fid ∧
          b.status = Status.waitlisted) ∧
        l1 = pre ++ (k, { b with status := Status.confirmed }) :: post := by
  intro l
  induction l with
  | nil =>
      intro l1 hsome
      rw [AMS.confirm_first_waitlisted] at hsome
      exact absurd hsome (by simp)
  | cons kb t ih =>
      obtain ⟨k, b⟩ := kb
      intro l1 hsome
      rw [AMS.confirm_first_waitlisted] at hsome
      by_cases hc : b.passenger_id = h ∧ b.flight_id = fid ∧
          b.status = Status.waitlisted
      · rw [if_pos hc] at hsome
        refine ⟨[], k, b, t, by simp, hc, ?_⟩
        simp only [List.nil_append]
        exact (Option.some.inj hsome).symm
      · rw [if_neg hc] at hsome
        cases hcall : AMS.confirm_first_waitlisted h fid t with
        | none =>
            rw [hcall] at hsome
            exact absurd hsome (by simp)
        | some t1 =>
            rw [hcall] at hsome
            obtain ⟨pre, k1, b1, post, heq, hprop, heq1⟩ := ih t1 hcall
            refine ⟨(k, b) :: pre, k1, b1, post, by simp [heq], hprop, ?_⟩
            rw [← Option.some.inj hsome, heq1]
            simp

/-- Invariant preservation for the WAITLISTED branch of `cancel_booking`,
stated on the explicitly decomposed result state. -/
theorem sysInv_cancel_waitlisted_state (s : AMS) (bid : Nat) (b : Booking)
    (fl : Flight) (p : Passenger)
    (preB postB : List (Nat × Booking)) (preF postF : List (Nat × Flight))
    (preP postP : List (Nat × Passenger))
    (hInv : SysInv s)
    (hBeq : s.bookings = preB ++ (bid, b) :: postB)
    (hFeq : s.flights = preF ++ (b.flight_id, fl) :: postF)
    (hPeq : s.passengers = preP ++ (b.passenger_id, p) :: postP)
    (hst : b.status = Status.waitlisted) :
    SysInv
      { s with
          flights := preF ++ (b.flight_id, { fl with waiting_list := fl.waiting_list.erase b.passenger_id }) :: postF,
          bookings := preB ++ (bid, { b with status := Status.cancelled }) :: postB,
          passengers := preP ++ (b.passenger_id, { p with bookings := p.bookings.erase bid }) :: postP } := by
  have hkeysB : ∀ w : Booking, ((preB ++ (bid, w) :: postB).map Prod.fst)
      = s.bookings.map Prod.fst := by
    intro w
    rw [hBeq]
    simp
  have hkeysF : ∀ w : Flight, ((preF ++ (b.flight_id, w) :: postF).map Prod.fst)
      = s.flights.map Prod.fst := by
    intro w
    rw [hFeq]
    simp
  have hkeysP : ∀ w : Passenger,
      ((preP ++ (b.passenger_id, w) :: postP).map Prod.fst)
      = s.passengers.map Prod.fst := by
    intro w
    rw [hPeq]
    simp
  have hflmem : (b.flight_id, fl) ∈ s.flights := by
    rw [hFeq]
    simp
  have hppmem : (b.passenger_id, p) ∈ s.passengers := by
    rw [hPeq]
    simp
  have hnoC : ¬ (b.flight_id = b.flight_id ∧ b.status = Status.confirmed) := by
    rintro ⟨-, hc⟩
    rw [hst] at hc
    exact absurd hc (by simp)
  have hnoC1 : ∀ fid : Nat, ¬ (({ b with status := Status.cancelled } : Booking).flight_id = fid
      ∧ ({ b with status := Status.cancelled } : Booking).status = Status.confirmed) := by
    rintro fid ⟨-, hc⟩
    exact absurd hc (by simp)
  have hnoW1 : ∀ fid : Nat, ¬ (({ b with status := Status.cancelled } : Booking).flight_id = fid
      ∧ ({ b with status := Status.cancelled } : Booking).status = Status.waitlisted) := by
    rintro fid ⟨-, hc⟩
    exact absurd hc (by simp)
  constructor
  ·
    simp only []
    rw [hkeysB]
    exact hInv.bkeys
  ·
    simp only []
    rw [hkeysF]
    exact hInv.fkeys
  ·
    simp only []
    rw [hkeysP]
    exact hInv.pkeys
  ·
    simp only []
    intro kb hkb
    have hold : ∃ kb0 : Nat × Booking, kb0 ∈ s.bookings ∧
        kb0.2.flight_id = kb.2.flight_id ∧
        kb0.2.passenger_id = kb.2.passenger_id := by
      rcases List.mem_append.mp hkb with h1 | h1
      · exact ⟨kb, by rw [hBeq]; exact List.mem_append_left _ h1, rfl, rfl⟩
      · rcases List.mem_cons.mp h1 with h2 | h2
        · exact ⟨(bid, b), by rw [hBeq]; simp, by rw [h2], by rw [h2]⟩
        · refine ⟨kb, ?_, rfl, rfl⟩
          rw [hBeq]
          exact List.mem_append_right _ (List.mem_cons_of_mem _ h2)
    obtain ⟨kb0, hkb0, hfe, hpe⟩ := hold
    obtain ⟨h1, h2⟩ := hInv.brefs kb0 hkb0
    constructor
    · rw [isSome_iff_mem_keys, hkeysF, ← hfe]
      exact (isSome_iff_mem_keys _ _).mp h1
    · rw [isSome_iff_mem_keys, hkeysP, ← hpe]
      exact (isSome_iff_mem_keys _ _).mp h2
  ·
    simp only []
    intro kf hkf
    rcases List.mem_append.mp hkf with h1 | h1
    · exact hInv.fseats kf (by rw [hFeq]; exact List.mem_append_left _ h1)
    · rcases List.mem_cons.mp h1 with h2 | h2
      · rw [h2]
        exact hInv.fseats (b.flight_id, fl) hflmem
      · exact hInv.fseats kf
          (by rw [hFeq]; exact List.mem_append_right _ (List.mem_cons_of_mem _ h2))
  ·
    simp only []
    intro kf hkf
    rcases List.mem_append.mp hkf with h1 | h1
    · exact hInv.fcap kf (by rw [hFeq]; exact List.mem_append_left _ h1)
    · rcases List.mem_cons.mp h1 with h2 | h2
      · rw [h2]
        exact hInv.fcap (b.flight_id, fl) hflmem
      · exact hInv.fcap kf
          (by rw [hFeq]; exact List.mem_append_right _ (List.mem_cons_of_mem _ h2))
  ·
    simp only []
    intro kf hkf
    rw [confirmedFor_replace preB postB bid b _ kf.1
      (by
        rintro ⟨-, hc⟩
        rw [hst] at hc
        exact absurd hc (by simp))
      (hnoC1 kf.1), ← hBeq]
    rcases List.mem_append.mp hkf with h1 | h1
    · exact hInv.fconf kf (by rw [hFeq]; exact List.mem_append_left _ h1)
    · rcases List.mem_cons.mp h1 with h2 | h2
      · rw [h2]
        exact hInv.fconf (b.flight_id, fl) hflmem
      · exact hInv.fconf kf
          (by rw [hFeq]; exact List.mem_append_right _ (List.mem_cons_of_mem _ h2))
  ·
    simp only []
    intro kf hkf
    rcases List.mem_append.mp hkf with h1 | h1
    · rw [waitlistedFor_replace preB postB bid b _ kf.1
        (by
          rintro ⟨hc, -⟩
          have := keys_nodup_mid preF postF b.flight_id fl
            (by rw [← hFeq]; exact hInv.fkeys)
          exact this.1 kf h1 (by rw [hc]))
        (hnoW1 kf.1), ← hBeq]
      exact hInv.fwait kf (by rw [hFeq]; exact List.mem_append_left _ h1)
    · rcases List.mem_cons.mp h1 with h2 | h2
      · rw [h2]
        have hdropP := waitlistedFor_drop preB postB bid b
          ({ b with status := Status.cancelled }) b.flight_id ⟨rfl, hst⟩
          (hnoW1 b.flight_id)
        have holdw := hInv.fwait (b.flight_id, fl) hflmem
        rw [hBeq] at holdw
        have hchain := holdw.trans hdropP
        have := hchain.erase b.passenger_id
        rw [List.erase_cons_head] at this
        exact this
      · rw [waitlistedFor_replace preB postB bid b _ kf.1
          (by
            rintro ⟨hc, -⟩
            have := keys_nodup_mid preF postF b.flight_id fl
              (by rw [← hFeq]; exact hInv.fkeys)
            exact this.2 kf h2 (by rw [hc]))
          (hnoW1 kf.1), ← hBeq]
        exact hInv.fwait kf
          (by rw [hFeq]; exact List.mem_append_right _ (List.mem_cons_of_mem _ h2))
  ·
    simp only []
    intro kp hkp
    rcases List.mem_append.mp hkp with h1 | h1
    · rw [activeFor_replace preB postB bid b _ kp.1
        (by
          constructor
          · rintro ⟨hc, -⟩
            exfalso
            have := keys_nodup_mid preP postP b.passenger_id p
              (by rw [← hPeq]; exact hInv.pkeys)
            exact this.1 kp h1 (by rw [hc])
          · rintro ⟨hc, -⟩
            exfalso
            have := keys_nodup_mid preP postP b.passenger_id p
              (by rw [← hPeq]; exact hInv.pkeys)
            exact this.1 kp h1 (by rw [← hc])), ← hBeq]
      exact hInv.pact kp (by rw [hPeq]; exact List.mem_append_left _ h1)
    · rcases List.mem_cons.mp h1 with h2 | h2
      · rw [h2]
        have hdropA := activeFor_drop preB postB bid b
          ({ b with status := Status.cancelled }) b.passenger_id
          ⟨rfl, by rw [hst]; simp⟩
          (by
            rintro ⟨-, hc⟩
            exact hc rfl)
        have holda := hInv.pact (b.passenger_id, p) hppmem
        rw [hBeq] at holda
        have hchain := holda.trans hdropA
        have := hchain.erase bid
        rw [List.erase_cons_head] at this
        exact this
      · rw [activeFor_replace preB postB bid b _ kp.1
          (by
            constructor
            · rintro ⟨hc, -⟩
              exfalso
              have := keys_nodup_mid preP postP b.passenger_id p
                (by rw [← hPeq]; exact hInv.pkeys)
              exact this.2 kp h2 (by rw [hc])
            · rintro ⟨hc, -⟩
              exfalso
              have := keys_nodup_mid preP postP b.passenger_id p
                (by rw [← hPeq]; exact hInv.pkeys)
              exact this.2 kp h2 (by rw [← hc])), ← hBeq]
        exact hInv.pact kp
          (by rw [hPeq]; exact List.mem_append_right _ (List.mem_cons_of_mem _ h2))

/-- Invariant preservation for the CONFIRMED branch of `cancel_booking`
when the waiting list is empty (no promotion), stated on the explicitly
decomposed result state. -/
theorem sysInv_cancel_confirmed_state (s : AMS) (bid : Nat) (b : Booking)
    (fl : Flight) (p : Passenger)
    (preB postB : List (Nat × Booking)) (preF postF : List (Nat × Flight))
    (preP postP : List (Nat × Passenger))
    (hInv : SysInv s)
    (hBeq : s.bookings = preB ++ (bid, b) :: postB)
    (hFeq : s.flights = preF ++ (b.flight_id, fl) :: postF)
    (hPeq : s.passengers = preP ++ (b.passenger_id, p) :: postP)
    (hst : b.status = Status.confirmed) :
    SysInv
      { s with
          flights := preF ++ (b.flight_id, { fl with booked_seats := fl.booked_seats - 1, passengers := fl.passengers.erase b.passenger_id }) :: postF,
          bookings := preB ++ (bid, { b with status := Status.cancelled }) :: postB,
          passengers := preP ++ (b.passenger_id, { p with bookings := p.bookings.erase bid }) :: postP } := by
  have hkeysB : ∀ w : Booking, ((preB ++ (bid, w) :: postB).map Prod.fst)
      = s.bookings.map Prod.fst := by
    intro w
    rw [hBeq]
    simp
  have hkeysF : ∀ w : Flight, ((preF ++ (b.flight_id, w) :: postF).map Prod.fst)
      = s.flights.map Prod.fst := by
    intro w
    rw [hFeq]
    simp
  have hkeysP : ∀ w : Passenger,
      ((preP ++ (b.passenger_id, w) :: postP).map Prod.fst)
      = s.passengers.map Prod.fst := by
    intro w
    rw [hPeq]
    simp
  have hflmem : (b.flight_id, fl) ∈ s.flights := by
    rw [hFeq]
    simp
  have hppmem : (b.passenger_id, p) ∈ s.passengers := by
    rw [hPeq]
    simp
  have hnoC1 : ∀ fid : Nat, ¬ (({ b with status := Status.cancelled } : Booking).flight_id = fid
      ∧ ({ b with status := Status.cancelled } : Booking).status = Status.confirmed) := by
    rintro fid ⟨-, hc⟩
    exact absurd hc (by simp)
  have hnoW1 : ∀ fid : Nat, ¬ (({ b with status := Status.cancelled } : Booking).flight_id = fid
      ∧ ({ b with status := Status.cancelled } : Booking).status = Status.waitlisted) := by
    rintro fid ⟨-, hc⟩
    exact absurd hc (by simp)
  have hdropC := confirmedFor_drop preB postB bid b
    ({ b with status := Status.cancelled }) b.flight_id ⟨rfl, hst⟩
    (hnoC1 b.flight_id)
  have hchainC : fl.passengers.Perm (b.passenger_id ::
      confirmedFor (preB ++ (bid, { b with status := Status.cancelled }) :: postB)
        b.flight_id) := by
    have h0 := hInv.fconf (b.flight_id, fl) hflmem
    rw [hBeq] at h0
    exact h0.trans hdropC
  have hmemp : b.passenger_id ∈ fl.passengers := by
    have h0 := hInv.fconf (b.flight_id, fl) hflmem
    rw [hBeq] at h0
    refine h0.mem_iff.mpr ?_
    rw [confirmedFor_append, confirmedFor_cons, if_pos ⟨rfl, hst⟩]
    simp
  constructor
  ·
    simp only []
    rw [hkeysB]
    exact hInv.bkeys
  ·
    simp only []
    rw [hkeysF]
    exact hInv.fkeys
  ·
    simp only []
    rw [hkeysP]
    exact hInv.pkeys
  ·
    simp only []
    intro kb hkb
    have hold : ∃ kb0 : Nat × Booking, kb0 ∈ s.bookings ∧
        kb0.2.flight_id = kb.2.flight_id ∧
        kb0.2.passenger_id = kb.2.passenger_id := by
      rcases List.mem_append.mp hkb with h1 | h1
      · exact ⟨kb, by rw [hBeq]; exact List.mem_append_left _ h1, rfl, rfl⟩
      · rcases List.mem_cons.mp h1 with h2 | h2
        · exact ⟨(bid, b), by rw [hBeq]; simp, by rw [h2], by rw [h2]⟩
        · refine ⟨kb, ?_, rfl, rfl⟩
          rw [hBeq]
          exact List.mem_append_right _ (List.mem_cons_of_mem _ h2)
    obtain ⟨kb0, hkb0, hfe, hpe⟩ := hold
    obtain ⟨h1, h2⟩ := hInv.brefs kb0 hkb0
    constructor
    · rw [isSome_iff_mem_keys, hkeysF, ← hfe]
      exact (isSome_iff_mem_keys _ _).mp h1
    · rw [isSome_iff_mem_keys, hkeysP, ← hpe]
      exact (isSome_iff_mem_keys _ _).mp h2
  ·
    simp only []
    intro kf hkf
    rcases List.mem_append.mp hkf with h1 | h1
    · exact hInv.fseats kf (by rw [hFeq]; exact List.mem_append_left _ h1)
    · rcases List.mem_cons.mp h1 with h2 | h2
      · rw [h2]
        have hold := hInv.fseats (b.flight_id, fl) hflmem
        simp only at hold ⊢
        rw [List.length_erase_of_mem hmemp]
        have hlen : 1 ≤ fl.passengers.length :=
          List.length_pos.mpr (List.ne_nil_of_mem hmemp)
        omega
      · exact hInv.fseats kf
          (by rw [hFeq]; exact List.mem_append_right _ (List.mem_cons_of_mem _ h2))
  ·
    simp only []
    intro kf hkf
    rcases List.mem_append.mp hkf with h1 | h1
    · exact hInv.fcap kf (by rw [hFeq]; exact List.mem_append_left _ h1)
    · rcases List.mem_cons.mp h1 with h2 | h2
      · rw [h2]
        have hold := hInv.fcap (b.flight_id, fl) hflmem
        simp only at hold ⊢
        omega
      · exact hInv.fcap kf
          (by rw [hFeq]; exact List.mem_append_right _ (List.mem_cons_of_mem _ h2))
  ·
    simp only []
    intro kf hkf
    rcases List.mem_append.mp hkf with h1 | h1
    · rw [confirmedFor_replace preB postB bid b _ kf.1
        (by
          rintro ⟨hc, -⟩
          have := keys_nodup_mid preF postF b.flight_id fl
            (by rw [← hFeq]; exact hInv.fkeys)
          exact this.1 kf h1 (by rw [hc]))
        (hnoC1 kf.1), ← hBeq]
      exact hInv.fconf kf (by rw [hFeq]; exact List.mem_append_left _ h1)
    · rcases List.mem_cons.mp h1 with h2 | h2
      · rw [h2]
        have := hchainC.erase b.passenger_id
        rw [List.erase_cons_head] at this
        exact this
      · rw [confirmedFor_replace preB postB bid b _ kf.1
          (by
            rintro ⟨hc, -⟩
            have := keys_nodup_mid preF postF b.flight_id fl
              (by rw [← hFeq]; exact hInv.fkeys)
            exact this.2 kf h2 (by rw [hc]))
          (hnoC1 kf.1), ← hBeq]
        exact hInv.fconf kf
          (by rw [hFeq]; exact List.mem_append_right _ (List.mem_cons_of_mem _ h2))
  ·
    simp only []
    intro kf hkf
    rw [waitlistedFor_replace preB postB bid b _ kf.1
      (by
        rintro ⟨-, hc⟩
        rw [hst] at hc
        exact absurd hc (by simp))
      (hnoW1 kf.1), ← hBeq]
    rcases List.mem_append.mp hkf with h1 | h1
    · exact hInv.fwait kf (by rw [hFeq]; exact List.mem_append_left _ h1)
    · rcases List.mem_cons.mp h1 with h2 | h2
      · rw [h2]
        exact hInv.fwait (b.flight_id, fl) hflmem
      · exact hInv.fwait kf
          (by rw [hFeq]; exact List.mem_append_right _ (List.mem_cons_of_mem _ h2))
  ·
    simp only []
    intro kp hkp
    rcases List.mem_append.mp hkp with h1 | h1
    · rw [activeFor_replace preB postB bid b _ kp.1
        (by
          constructor
          · rintro ⟨hc, -⟩
            exfalso
            have := keys_nodup_mid preP postP b.passenger_id p
              (by rw [← hPeq]; exact hInv.pkeys)
            exact this.1 kp h1 (by rw [hc])
          · rintro ⟨hc, -⟩
            exfalso
            have := keys_nodup_mid preP postP b.passenger_id p
              (by rw [← hPeq]; exact hInv.pkeys)
            exact this.1 kp h1 (by rw [← hc])), ← hBeq]
      exact hInv.pact kp (by rw [hPeq]; exact List.mem_append_left _ h1)
    · rcases List.mem_cons.mp h1 with h2 | h2
      · rw [h2]
        have hdropA := activeFor_drop preB postB bid b
          ({ b with status := Status.cancelled }) b.passenger_id
          ⟨rfl, by rw [hst]; simp⟩
          (by
            rintro ⟨-, hc⟩
            exact hc rfl)
        have holda := hInv.pact (b.passenger_id, p) hppmem
        rw [hBeq] at holda
        have hchain := holda.trans hdropA
        have := hchain.erase bid
        rw [List.erase_cons_head] at this
        exact this
      · rw [activeFor_replace preB postB bid b _ kp.1
          (by
            constructor
            · rintro ⟨hc, -⟩
              exfalso
              have := keys_nodup_mid preP postP b.passenger_id p
                (by rw [← hPeq]; exact hInv.pkeys)
              exact this.2 kp h2 (by rw [hc])
            · rintro ⟨hc, -⟩
              exfalso
              have := keys_nodup_mid preP postP b.passenger_id p
                (by rw [← hPeq]; exact hInv.pkeys)
              exact this.2 kp h2 (by rw [← hc])), ← hBeq]
        exact hInv.pact kp
          (by rw [hPeq]; exact List.mem_append_right _ (List.mem_cons_of_mem _ h2))

/-- Invariant preservation for the CONFIRMED branch of `cancel_booking`
with a non-empty waiting list: the head passenger's first WAITLISTED
booking (at key `kh`) has been set CONFIRMED, the cancelled booking (at
key `bid`) set CANCELLED, and the flight re-filled.  `preW/postW` split
the original booking map at `kh`; `preB2/postB2` split the map after the
promotion write at `bid`. -/
theorem sysInv_cancel_promo_state (s : AMS) (bid kh h : Nat) (b bW : Booking)
    (fl : Flight) (p : Passenger) (twl : List Nat)
    (preW postW preB2 postB2 : List (Nat × Booking))
    (preF postF : List (Nat × Flight)) (preP postP : List (Nat × Passenger))
    (hInv : SysInv s)
    (hWeq : s.bookings = preW ++ (kh, bW) :: postW)
    (hWprop : bW.passenger_id = h ∧ bW.flight_id = b.flight_id ∧
      bW.status = Status.waitlisted)
    (hB2eq : preW ++ (kh, { bW with status := Status.confirmed }) :: postW
      = preB2 ++ (bid, b) :: postB2)
    (hbk : bid ≠ kh)
    (hFeq : s.flights = preF ++ (b.flight_id, fl) :: postF)
    (hPeq : s.passengers = preP ++ (b.passenger_id, p) :: postP)
    (hst : b.status = Status.confirmed)
    (hwl : fl.waiting_list = h :: twl) :
    SysInv
      { s with
          flights := preF ++ (b.flight_id, { fl with booked_seats := fl.booked_seats - 1 + 1, passengers := fl.passengers.erase b.passenger_id ++ [h], waiting_list := twl }) :: postF,
          bookings := preB2 ++ (bid, { b with status := Status.cancelled }) :: postB2,
          passengers := preP ++ (b.passenger_id, { p with bookings := p.bookings.erase bid }) :: postP } := by
  have hkeysB2 : ∀ w : Booking, ((preB2 ++ (bid, w) :: postB2).map Prod.fst)
      = s.bookings.map Prod.fst := by
    intro w
    have e1 : ((preB2 ++ (bid, w) :: postB2).map Prod.fst)
        = ((preB2 ++ (bid, b) :: postB2).map Prod.fst) := by
      simp
    rw [e1, ← hB2eq, hWeq]
    simp
  have hkeysF : ∀ w : Flight, ((preF ++ (b.flight_id, w) :: postF).map Prod.fst)
      = s.flights.map Prod.fst := by
    intro w
    rw [hFeq]
    simp
  have hkeysP : ∀ w : Passenger,
      ((preP ++ (b.passenger_id, w) :: postP).map Prod.fst)
      = s.passengers.map Prod.fst := by
    intro w
    rw [hPeq]
    simp
  have hflmem : (b.flight_id, fl) ∈ s.flights := by
    rw [hFeq]
    simp
  have hppmem : (b.passenger_id, p) ∈ s.passengers := by
    rw [hPeq]
    simp
  have hWmem : (kh, bW) ∈ s.bookings := by
    rw [hWeq]
    simp
  have hbmem : (bid, b) ∈ s.bookings := by
    have h1 : (bid, b) ∈ preW ++ (kh, { bW with status := Status.confirmed }) :: postW := by
      rw [hB2eq]
      simp
    rw [hWeq]
    rcases List.mem_append.mp h1 with h2 | h2
    · exact List.mem_append_left _ h2
    · rcases List.mem_cons.mp h2 with h3 | h3
      · exact absurd (congrArg Prod.fst h3) hbk
      · exact List.mem_append_right _ (List.mem_cons_of_mem _ h3)
  have hnoC1 : ∀ fid : Nat, ¬ (({ b with status := Status.cancelled } : Booking).flight_id = fid
      ∧ ({ b with status := Status.cancelled } : Booking).status = Status.confirmed) := by
    rintro fid ⟨-, hc⟩
    exact absurd hc (by simp)
  have hnoW1 : ∀ fid : Nat, ¬ (({ b with status := Status.cancelled } : Booking).flight_id = fid
      ∧ ({ b with status := Status.cancelled } : Booking).status = Status.waitlisted) := by
    rintro fid ⟨-, hc⟩
    exact absurd hc (by simp)
  have hnoWC : ∀ fid : Nat, ¬ (({ bW with status := Status.confirmed } : Booking).flight_id = fid
      ∧ ({ bW with status := Status.confirmed } : Booking).status = Status.waitlisted) := by
    rintro fid ⟨-, hc⟩
    exact absurd hc (by simp)
  have hnoWconf : ¬ (bW.flight_id = b.flight_id ∧ bW.status = Status.confirmed) := by
    rintro ⟨-, hc⟩
    rw [hWprop.2.2] at hc
    exact absurd hc (by simp)
  have hmemp : b.passenger_id ∈ fl.passengers := by
    have h0 := hInv.fconf (b.flight_id, fl) hflmem
    refine h0.mem_iff.mpr ?_
    refine List.mem_map.mpr ⟨(bid, b), List.mem_filter.mpr ⟨hbmem, ?_⟩, rfl⟩
    simp [hst]
  have holdc := hInv.fconf (b.flight_id, fl) hflmem
  have holdw := hInv.fwait (b.flight_id, fl) hflmem
  have holda := hInv.pact (b.passenger_id, p) hppmem
  constructor
  ·
    simp only []
    rw [hkeysB2]
    exact hInv.bkeys
  ·
    simp only []
    rw [hkeysF]
    exact hInv.fkeys
  ·
    simp only []
    rw [hkeysP]
    exact hInv.pkeys
  ·
    simp only []
    intro kb hkb
    have hold : ∃ kb0 : Nat × Booking, kb0 ∈ s.bookings ∧
        kb0.2.flight_id = kb.2.flight_id ∧
        kb0.2.passenger_id = kb.2.passenger_id := by
      have hcases : kb = (bid, ({ b with status := Status.cancelled } : Booking))
          ∨ kb ∈ preB2 ∨ kb ∈ postB2 := by
        rcases List.mem_append.mp hkb with h1 | h1
        · exact Or.inr (Or.inl h1)
        · rcases List.mem_cons.mp h1 with h2 | h2
          · exact Or.inl h2
          · exact Or.inr (Or.inr h2)
      rcases hcases with h1 | h1
      · exact ⟨(bid, b), hbmem, by rw [h1], by rw [h1]⟩
      · have hmemmid : kb ∈ preW ++ (kh, { bW with status := Status.confirmed }) :: postW := by
          rw [hB2eq]
          rcases h1 with h2 | h2
          · exact List.mem_append_left _ h2
          · exact List.mem_append_right _ (List.mem_cons_of_mem _ h2)
        rcases List.mem_append.mp hmemmid with h2 | h2
        · exact ⟨kb, by rw [hWeq]; exact List.mem_append_left _ h2, rfl, rfl⟩
        · rcases List.mem_cons.mp h2 with h3 | h3
          · exact ⟨(kh, bW), hWmem, by rw [h3], by rw [h3]⟩
          · refine ⟨kb, ?_, rfl, rfl⟩
            rw [hWeq]
            exact List.mem_append_right _ (List.mem_cons_of_mem _ h3)
    obtain ⟨kb0, hkb0, hfe, hpe⟩ := hold
    obtain ⟨h1, h2⟩ := hInv.brefs kb0 hkb0
    constructor
    · rw [isSome_iff_mem_keys, hkeysF, ← hfe]
      exact (isSome_iff_mem_keys _ _).mp h1
    · rw [isSome_iff_mem_keys, hkeysP, ← hpe]
      exact (isSome_iff_mem_keys _ _).mp h2
  ·
    simp only []
    intro kf hkf
    rcases List.mem_append.mp hkf with h1 | h1
    · exact hInv.fseats kf (by rw [hFeq]; exact List.mem_append_left _ h1)
    · rcases List.mem_cons.mp h1 with h2 | h2
      · rw [h2]
        have hold := hInv.fseats (b.flight_id, fl) hflmem
        simp only at hold ⊢
        rw [List.length_append, List.length_erase_of_mem hmemp]
        have hlen : 1 ≤ fl.passengers.length :=
          List.length_pos.mpr (List.ne_nil_of_mem hmemp)
        simp only [List.length_singleton]
        omega
      · exact hInv.fseats kf
          (by rw [hFeq]; exact List.mem_append_right _ (List.mem_cons_of_mem _ h2))
  ·
    simp only []
    intro kf hkf
    rcases List.mem_append.mp hkf with h1 | h1
    · exact hInv.fcap kf (by rw [hFeq]; exact List.mem_append_left _ h1)
    · rcases List.mem_cons.mp h1 with h2 | h2
      · rw [h2]
        have hold := hInv.fcap (b.flight_id, fl) hflmem
        simp only at hold ⊢
        omega
      · exact hInv.fcap kf
          (by rw [hFeq]; exact List.mem_append_right _ (List.mem_cons_of_mem _ h2))
  ·
    simp only []
    intro kf hkf
    rcases List.mem_append.mp hkf with h1 | h1
    · have hne : kf.1 ≠ b.flight_id := by
        have := keys_nodup_mid preF postF b.flight_id fl
          (by rw [← hFeq]; exact hInv.fkeys)
        exact this.1 kf h1
      rw [confirmedFor_replace preB2 postB2 bid b _ kf.1
        (by rintro ⟨hc, -⟩; exact hne (by rw [← hc]))
        (hnoC1 kf.1), ← hB2eq,
        confirmedFor_replace preW postW kh bW _ kf.1
        (by rintro ⟨hc, -⟩; exact hne (by rw [← hc, hWprop.2.1]))
        (by rintro ⟨hc, -⟩; exact hne (by rw [← hc]; exact hWprop.2.1)),
        ← hWeq]
      exact hInv.fconf kf (by rw [hFeq]; exact List.mem_append_left _ h1)
    · rcases List.mem_cons.mp h1 with h2 | h2
      · rw [h2]
        simp only
        have hdrop1 := confirmedFor_drop preB2 postB2 bid b
          ({ b with status := Status.cancelled }) b.flight_id ⟨rfl, hst⟩
          (hnoC1 b.flight_id)
        have hdrop2 := confirmedFor_drop preW postW kh
          ({ bW with status := Status.confirmed }) bW b.flight_id
          ⟨hWprop.2.1, rfl⟩ hnoWconf
        have e2 : (confirmedFor (preB2 ++ (bid, b) :: postB2) b.flight_id).Perm
            (h :: fl.passengers) := by
          rw [← hB2eq]
          refine hdrop2.trans ?_
          rw [hWprop.1, ← hWeq]
          exact (holdc.symm).cons h
        have e3 : (b.passenger_id ::
            confirmedFor (preB2 ++ (bid, { b with status := Status.cancelled }) :: postB2)
              b.flight_id).Perm (h :: fl.passengers) :=
          hdrop1.symm.trans e2
        have e4 := e3.erase b.passenger_id
        rw [List.erase_cons_head] at e4
        by_cases hph : h = b.passenger_id
        · rw [hph] at e4 ⊢
          rw [List.erase_cons_head] at e4
          exact ((List.perm_append_singleton _ _).trans
            (List.perm_cons_erase hmemp).symm).trans e4.symm
        · rw [List.erase_cons_tail (by simp [hph])] at e4
          refine (List.perm_append_singleton _ _).trans ?_
          exact e4.symm
      · have hne : kf.1 ≠ b.flight_id := by
          have := keys_nodup_mid preF postF b.flight_id fl
            (by rw [← hFeq]; exact hInv.fkeys)
          exact this.2 kf h2
        rw [confirmedFor_replace preB2 postB2 bid b _ kf.1
          (by rintro ⟨hc, -⟩; exact hne (by rw [← hc]))
          (hnoC1 kf.1), ← hB2eq,
          confirmedFor_replace preW postW kh bW _ kf.1
          (by rintro ⟨hc, -⟩; exact hne (by rw [← hc, hWprop.2.1]))
          (by rintro ⟨hc, -⟩; exact hne (by rw [← hc]; exact hWprop.2.1)),
          ← hWeq]
        exact hInv.fconf kf
          (by rw [hFeq]; exact List.mem_append_right _ (List.mem_cons_of_mem _ h2))
  ·
    simp only []
    intro kf hkf
    rcases List.mem_append.mp hkf with h1 | h1
    · have hne : kf.1 ≠ b.flight_id := by
        have := keys_nodup_mid preF postF b.flight_id fl
          (by rw [← hFeq]; exact hInv.fkeys)
        exact this.1 kf h1
      rw [waitlistedFor_replace preB2 postB2 bid b _ kf.1
        (by rintro ⟨hc, -⟩; exact hne (by rw [← hc]))
        (hnoW1 kf.1), ← hB2eq,
        waitlistedFor_replace preW postW kh bW _ kf.1
        (by rintro ⟨hc, -⟩; exact hne (by rw [← hc, hWprop.2.1]))
        (by rintro ⟨hc, -⟩; exact hne (by rw [← hc]; exact hWprop.2.1)),
        ← hWeq]
      exact hInv.fwait kf (by rw [hFeq]; exact List.mem_append_left _ h1)
    · rcases List.mem_cons.mp h1 with h2 | h2
      · rw [h2]
        simp only
        rw [waitlistedFor_replace preB2 postB2 bid b
          ({ b with status := Status.cancelled }) b.flight_id
          (by
            rintro ⟨-, hc⟩
            rw [hst] at hc
            exact absurd hc (by simp))
          (hnoW1 b.flight_id), ← hB2eq]
        have hdrop2 := waitlistedFor_drop preW postW kh bW
          ({ bW with status := Status.confirmed }) b.flight_id
          ⟨hWprop.2.1, hWprop.2.2⟩ (hnoWC b.flight_id)
        have e1 : (fl.waiting_list).Perm (bW.passenger_id ::
            waitlistedFor (preW ++ (kh, { bW with status := Status.confirmed }) :: postW)
              b.flight_id) := by
          refine ?_
          rw [hWeq] at holdw
          exact holdw.trans hdrop2
        rw [hwl] at e1
        have e2 : (bW.passenger_id ::
            waitlistedFor (preW ++ (kh, { bW with status := Status.confirmed }) :: postW)
              b.flight_id).Perm (h ::
            waitlistedFor (preW ++ (kh, { bW with status := Status.confirmed }) :: postW)
              b.flight_id) := by
          rw [hWprop.1]
        exact (e1.trans e2).cons_inv
      · have hne : kf.1 ≠ b.flight_id := by
          have := keys_nodup_mid preF postF b.flight_id fl
            (by rw [← hFeq]; exact hInv.fkeys)
          exact this.2 kf h2
        rw [waitlistedFor_replace preB2 postB2 bid b _ kf.1
          (by rintro ⟨hc, -⟩; exact hne (by rw [← hc]))
          (hnoW1 kf.1), ← hB2eq,
          waitlistedFor_replace preW postW kh bW _ kf.1
          (by rintro ⟨hc, -⟩; exact hne (by rw [← hc, hWprop.2.1]))
          (by rintro ⟨hc, -⟩; exact hne (by rw [← hc]; exact hWprop.2.1)),
          ← hWeq]
        exact hInv.fwait kf
          (by rw [hFeq]; exact List.mem_append_right _ (List.mem_cons_of_mem _ h2))
  ·
    simp only []
    intro kp hkp
    have hrepW : ∀ q : Nat,
        activeFor (preW ++ (kh, { bW with status := Status.confirmed }) :: postW) q
        = activeFor (preW ++ (kh, bW) :: postW) q := by
      intro q
      refine activeFor_replace preW postW kh bW _ q ?_
      constructor
      · rintro ⟨hc, -⟩
        exact ⟨hc, by simp⟩
      · rintro ⟨hc, -⟩
        refine ⟨hc, ?_⟩
        rw [hWprop.2.2]
        simp
    rcases List.mem_append.mp hkp with h1 | h1
    · have hne : kp.1 ≠ b.passenger_id := by
        have := keys_nodup_mid preP postP b.passenger_id p
          (by rw [← hPeq]; exact hInv.pkeys)
        exact this.1 kp h1
      rw [activeFor_replace preB2 postB2 bid b _ kp.1
        (by
          constructor
          · rintro ⟨hc, -⟩
            exact absurd (by rw [← hc] : kp.1 = b.passenger_id) hne
          · rintro ⟨hc, -⟩
            exact absurd (by rw [← hc] : kp.1 = b.passenger_id) hne),
        ← hB2eq, hrepW, ← hWeq]
      exact hInv.pact kp (by rw [hPeq]; exact List.mem_append_left _ h1)
    · rcases List.mem_cons.mp h1 with h2 | h2
      · rw [h2]
        simp only
        have hdrop1 := activeFor_drop preB2 postB2 bid b
          ({ b with status := Status.cancelled }) b.passenger_id
          ⟨rfl, by rw [hst]; simp⟩
          (by rintro ⟨-, hc⟩; exact hc rfl)
        have e1 : (p.bookings).Perm (bid ::
            activeFor (preB2 ++ (bid, { b with status := Status.cancelled }) :: postB2)
              b.passenger_id) := by
          have h0 : (p.bookings).Perm
              (activeFor (preB2 ++ (bid, b) :: postB2) b.passenger_id) := by
            rw [hWeq] at holda
            rw [← hrepW, hB2eq] at holda
            exact holda
          exact h0.trans hdrop1
        have e2 := e1.erase bid
        rw [List.erase_cons_head] at e2
        exact e2
      · have hne : kp.1 ≠ b.passenger_id := by
          have := keys_nodup_mid preP postP b.passenger_id p
            (by rw [← hPeq]; exact hInv.pkeys)
          exact this.2 kp h2
        rw [activeFor_replace preB2 postB2 bid b _ kp.1
          (by
            constructor
            · rintro ⟨hc, -⟩
              exact absurd (by rw [← hc] : kp.1 = b.passenger_id) hne
            · rintro ⟨hc, -⟩
              exact absurd (by rw [← hc] : kp.1 = b.passenger_id) hne),
          ← hB2eq, hrepW, ← hWeq]
        exact hInv.pact kp
          (by rw [hPeq]; exact List.mem_append_right _ (List.mem_cons_of_mem _ h2))

/-- `cancel_booking` preserves the invariant (including the paths on
which the source raises). -/
theorem sysInv_cancel (s : AMS) (bid : Nat) (hInv : SysInv s) :
    SysInv (s.cancel_booking bid).2 := by
  cases hb : alookup s.bookings bid with
  | none =>
      have hrun : s.cancel_booking bid = (CancelOut.notFound, s) := by
        rw [AMS.cancel_booking, hb]
      rw [hrun]
      exact hInv
  | some b =>
  cases hfl : alookup s.flights b.flight_id with
  | none =>
      have hrun : s.cancel_booking bid = (CancelOut.raised, s) := by
        simp only [AMS.cancel_booking, hb, hfl]
      rw [hrun]
      exact hInv
  | some fl =>
  cases hpp : alookup s.passengers b.passenger_id with
  | none =>
      have hrun : s.cancel_booking bid = (CancelOut.raised, s) := by
        simp only [AMS.cancel_booking, hb, hfl, hpp]
      rw [hrun]
      exact hInv
  | some p =>
  have hbmem : (bid, b) ∈ s.bookings := mem_of_alookup_some hb
  have hflmem : (b.flight_id, fl) ∈ s.flights := mem_of_alookup_some hfl
  have hppmem : (b.passenger_id, p) ∈ s.passengers := mem_of_alookup_some hpp
  obtain ⟨preB, postB, hBeq, -, hBins⟩ := alookup_some_split s.bookings bid b hb
  obtain ⟨preF, postF, hFeq, -, hFins⟩ :=
    alookup_some_split s.flights b.flight_id fl hfl
  obtain ⟨preP, postP, hPeq, -, hPins⟩ :=
    alookup_some_split s.passengers b.passenger_id p hpp
  cases hsteq : b.status with
  | confirmed =>
      have hmemp : b.passenger_id ∈ fl.passengers := by
        refine (hInv.fconf (b.flight_id, fl) hflmem).mem_iff.mpr ?_
        refine List.mem_map.mpr ⟨(bid, b), List.mem_filter.mpr ⟨hbmem, ?_⟩, rfl⟩
        simp [hsteq]
      have hbp : bid ∈ p.bookings := by
        refine (hInv.pact (b.passenger_id, p) hppmem).mem_iff.mpr ?_
        refine List.mem_map.mpr ⟨(bid, b), List.mem_filter.mpr ⟨hbmem, ?_⟩, rfl⟩
        simp [hsteq]
      cases hwl : fl.waiting_list with
      | nil =>
          have hrun : s.cancel_booking bid = (CancelOut.ok,
              { s with
                  flights := dinsert s.flights b.flight_id ({ fl with booked_seats := fl.booked_seats - 1, passengers := fl.passengers.erase b.passenger_id }),
                  bookings := dinsert s.bookings bid ({ b with status := Status.cancelled }),
                  passengers := dinsert s.passengers b.passenger_id ({ p with bookings := p.bookings.erase bid }) }) := by
            simp only [AMS.cancel_booking, hb, hfl, hpp, hsteq, hwl,
              AMS.finish_cancel]
            simp [hmemp, hbp]
          rw [hrun, congrFun hBins _, congrFun hFins _, congrFun hPins _]
          exact sysInv_cancel_confirmed_state s bid b fl p preB postB preF postF
            preP postP hInv hBeq hFeq hPeq hsteq
      | cons h twl =>
          cases hcfw : AMS.confirm_first_waitlisted h b.flight_id s.bookings with
          | none =>
              exfalso
              have hhw : h ∈ fl.waiting_list := by
                rw [hwl]
                exact List.mem_cons_self _ _
              have hhin : h ∈ waitlistedFor s.bookings b.flight_id :=
                (hInv.fwait (b.flight_id, fl) hflmem).mem_iff.mp hhw
              obtain ⟨kb, hkbf, hkbe⟩ := List.mem_map.mp hhin
              obtain ⟨hkbm, hkbp⟩ := List.mem_filter.mp hkbf
              refine cfw_none_forall h b.flight_id s.bookings hcfw kb hkbm ?_
              simp only [decide_eq_true_eq] at hkbp
              exact ⟨hkbe, hkbp.1, hkbp.2⟩
          | some bs1 =>
              obtain ⟨preW, kh, bW, postW, hWeq, hWprop, hbs1⟩ :=
                cfw_some_split_general h b.flight_id s.bookings bs1 hcfw
              have hkhmem : ((kh, bW) : Nat × Booking) ∈ s.bookings := by
                rw [hWeq]
                simp
              have halkh : alookup s.bookings kh = some bW :=
                alookup_of_mem_nodup hInv.bkeys hkhmem
              have hbk : bid ≠ kh := by
                intro he
                rw [← he] at halkh
                rw [hb] at halkh
                have hbe := Option.some.inj halkh
                rw [← hbe] at hWprop
                rw [hsteq] at hWprop
                exact absurd hWprop.2.2 (by simp)
              have hbmem1 : (bid, b) ∈ bs1 := by
                rw [hbs1]
                have h1 : (bid, b) ∈ preW ++ (kh, bW) :: postW := by
                  rw [← hWeq]
                  exact hbmem
                rcases List.mem_append.mp h1 with h2 | h2
                · exact List.mem_append_left _ h2
                · rcases List.mem_cons.mp h2 with h3 | h3
                  · exact absurd (congrArg Prod.fst h3) hbk
                  · exact List.mem_append_right _ (List.mem_cons_of_mem _ h3)
              have hbs1keys : bs1.map Prod.fst = s.bookings.map Prod.fst := by
                rw [hbs1, hWeq]
                simp
              have halb : alookup bs1 bid = some b := by
                refine alookup_of_mem_nodup ?_ hbmem1
                rw [hbs1keys]
                exact hInv.bkeys
              obtain ⟨preB2, postB2, hB2eqA, -, hB2ins⟩ :=
                alookup_some_split bs1 bid b halb
              have hB2eq : preW ++ (kh, { bW with status := Status.confirmed }) :: postW
                  = preB2 ++ (bid, b) :: postB2 := by
                rw [← hbs1, hB2eqA]
              have hrun : s.cancel_booking bid = (CancelOut.ok,
                  { s with
                      flights := dinsert s.flights b.flight_id ({ fl with booked_seats := fl.booked_seats - 1 + 1, passengers := fl.passengers.erase b.passenger_id ++ [h], waiting_list := twl }),
                      bookings := dinsert bs1 bid ({ b with status := Status.cancelled }),
                      passengers := dinsert s.passengers b.passenger_id ({ p with bookings := p.bookings.erase bid }) }) := by
                simp only [AMS.cancel_booking, hb, hfl, hpp, hsteq, hwl, hcfw,
                  AMS.finish_cancel]
                simp [hmemp, hbp]
              rw [hrun, congrFun hB2ins _, congrFun hFins _, congrFun hPins _]
              exact sysInv_cancel_promo_state s bid kh h b bW fl p twl preW postW
                preB2 postB2 preF postF preP postP hInv hWeq hWprop hB2eq hbk
                hFeq hPeq hsteq hwl
  | waitlisted =>
      have hbp : bid ∈ p.bookings := by
        refine (hInv.pact (b.passenger_id, p) hppmem).mem_iff.mpr ?_
        refine List.mem_map.mpr ⟨(bid, b), List.mem_filter.mpr ⟨hbmem, ?_⟩, rfl⟩
        simp [hsteq]
      have hrun : s.cancel_booking bid = (CancelOut.ok,
          { s with
              flights := dinsert s.flights b.flight_id ({ fl with waiting_list := fl.waiting_list.erase b.passenger_id }),
              bookings := dinsert s.bookings bid ({ b with status := Status.cancelled }),
              passengers := dinsert s.passengers b.passenger_id ({ p with bookings := p.bookings.erase bid }) }) := by
        simp only [AMS.cancel_booking, hb, hfl, hpp, hsteq, AMS.finish_cancel]
        simp [hbp]
      rw [hrun, congrFun hBins _, congrFun hFins _, congrFun hPins _]
      exact sysInv_cancel_waitlisted_state s bid b fl p preB postB preF postF
        preP postP hInv hBeq hFeq hPeq hsteq
  | cancelled =>
      have hbpn : bid ∉ p.bookings := by
        intro hbpmem
        have hin := (hInv.pact (b.passenger_id, p) hppmem).mem_iff.mp hbpmem
        obtain ⟨kb, hkbf, hkbe⟩ := List.mem_map.mp hin
        obtain ⟨hkbm, hkbp⟩ := List.mem_filter.mp hkbf
        simp only [decide_eq_true_eq] at hkbp
        have : alookup s.bookings kb.1 = some kb.2 :=
          alookup_of_mem_nodup hInv.bkeys hkbm
        rw [hkbe, hb] at this
        have hbe := Option.some.inj this
        refine hkbp.2 ?_
        rw [← hbe]
        exact hsteq
      have hbeq : ({ b with status := Status.cancelled } : Booking) = b := by
        rw [← hsteq]
      have hrun : s.cancel_booking bid = (CancelOut.raised, s) := by
        simp only [AMS.cancel_booking, hb, hfl, hpp, hsteq, AMS.finish_cancel]
        simp [hbpn, hbeq, dinsert_self_of_lookup s.bookings bid b hb]
      rw [hrun]
      exact hInv

/-- The invariant holds in every state reachable by book/cancel calls. -/
theorem sysInv_reach (s0 s : AMS) (h0 : SysInv s0) (hreach : ReachBC s0 s) :
    SysInv s := by
  induction hreach with
  | refl => exact h0
  | tail _ hstep ih =>
      cases hstep with
      | book pid fid bid t hfresh => exact sysInv_book _ pid fid bid t ih hfresh
      | cancel bid => exact sysInv_cancel _ bid ih

/-- C1: from any state satisfying the system invariant (in particular any
state in which every flight was freshly added: empty bookings, seats
matching the empty confirmed list), after any sequence of `book_flight`
and `cancel_booking` calls, every flight satisfies
`0 ≤ booked_seats ≤ capacity` and `booked_seats` equals the length of the
flight's confirmed-passenger list. -/
theorem c1_booking_invariant (s0 s : AMS) (h0 : SysInv s0)
    (hreach : ReachBC s0 s) :
    ∀ kf ∈ s.flights, 0 ≤ kf.2.booked_seats ∧
      kf.2.booked_seats ≤ kf.2.capacity ∧
      kf.2.booked_seats = (kf.2.passengers.length : Int) := by
  have hInv := sysInv_reach s0 s h0 hreach
  intro kf hkf
  refine ⟨?_, hInv.fcap kf hkf, hInv.fseats kf hkf⟩
  rw [hInv.fseats kf hkf]
  exact Int.natCast_nonneg _

/-- The state after one `book_flight` call on `capOneState`. -/
def c1WitState : AMS := (AMS.book_flight capOneState 1 10 100 0).2

/-- The unique flight entry of `c1WitState`. -/
def c1WitFlight : Nat × Flight :=
  (10, { mkFlight 10 "NYC" "LAX" 800 1100 1 500 2445 with
           booked_seats := 1
           passengers := [1] })

/-- Closed instance of `c1_booking_invariant`: `capOneState` satisfies the
invariant, one book step reaches `c1WitState`, and its flight entry
satisfies the bounds. -/
theorem c1_booking_invariant_witness :
    0 ≤ c1WitFlight.2.booked_seats ∧
      c1WitFlight.2.booked_seats ≤ c1WitFlight.2.capacity ∧
      c1WitFlight.2.booked_seats = (c1WitFlight.2.passengers.length : Int) :=
  c1_booking_invariant capOneState c1WitState
    ⟨by decide, by decide, by decide, by decide, by decide, by decide,
     by decide, by decide, by decide⟩
    (Relation.ReflTransGen.single
      (BCStep.book capOneState 1 10 100 0 (by decide)))
    c1WitFlight (by decide)

/-! ## C3: optimality of `dijkstra_shortest_path` -/

open AirportGraph

/-- A path through the flight multigraph from `a` under criterion `crit`:
the airport sequence as the source builds it (`path + [next_airport]`)
together with its accumulated cost (`new_cost = current_cost + edge_cost`). -/
inductive PathTo (g : AirportGraph) (crit : String) (a : String) :
    String → List String → Nat → Prop where
  | nil : PathTo g crit a a [a] 0
  | snoc {v : String} {p : List String} {c : Nat} (hp : PathTo g crit a v p c)
      (f : Flight) (hf : f ∈ adj g v) :
      PathTo g crit a f.destination (p ++ [f.destination]) (c + edge_cost crit f)

/-- Nodes of the `allNodes` population still unvisited. -/
def unvisCount (g : AirportGraph) (visited : List String) : Nat :=
  ((allNodes g).dedup.filter fun x => decide (x ∉ visited)).length

/-- Loop invariant of the `while pq` loop: every queue entry carries a
real path and its cost; every edge out of the visited region has a queue
entry at most as expensive as going through it; the start is covered
while unvisited; the destination has not been visited. -/
structure DInv (g : AirportGraph) (crit start endA : String)
    (pq : List DEntry) (visited : List String) : Prop where
  paths : ∀ e ∈ pq, PathTo g crit start e.2.1 e.2.2 e.1
  frontier : ∀ y ∈ visited, ∀ f ∈ adj g y, f.destination ∉ visited →
    ∃ e ∈ pq, e.2.1 = f.destination ∧
      ∀ q d, PathTo g crit start y q d → e.1 ≤ d + edge_cost crit f
  startCover : start ∉ visited → ∃ e ∈ pq, e.2.1 = start ∧ e.1 = 0
  endFree : endA ∉ visited

theorem entryLt_true_le {a b : DEntry} (h : entryLt a b = true) : a.1 ≤ b.1 := by
  by_cases h1 : a.1 < b.1
  · exact Nat.le_of_lt h1
  · rw [entryLt, if_neg h1] at h
    by_cases h2 : a.1 = b.1
    · exact Nat.le_of_eq h2
    · rw [if_neg h2] at h
      cases h

theorem entryLt_false_le {a b : DEntry} (h : entryLt a b = false) : b.1 ≤ a.1 := by
  by_cases h1 : a.1 < b.1
  · rw [entryLt, if_pos h1] at h
    cases h
  · omega

theorem selMin_choice (e : DEntry) (l : List DEntry) :
    selMin e l = e ∨ selMin e l ∈ l := by
  induction l generalizing e with
  | nil => exact Or.inl rfl
  | cons x xs ih =>
      have hstep : selMin e (x :: xs) = selMin (if entryLt x e then x else e) xs := rfl
      rw [hstep]
      rcases ih (if entryLt x e then x else e) with h | h
      · rw [h]
        by_cases hx : entryLt x e
        · rw [if_pos hx]
          exact Or.inr (List.mem_cons_self _ _)
        · rw [if_neg hx]
          exact Or.inl rfl
      · exact Or.inr (List.mem_cons_of_mem _ h)

theorem selMin_mem (e : DEntry) (l : List DEntry) : selMin e l ∈ e :: l := by
  rcases selMin_choice e l with h | h
  · rw [h]
    exact List.mem_cons_self _ _
  · exact List.mem_cons_of_mem _ h

theorem selMin_cost_self (e : DEntry) (l : List DEntry) :
    (selMin e l).1 ≤ e.1 := by
  induction l generalizing e with
  | nil => exact Nat.le_refl _
  | cons x xs ih =>
      have hstep : selMin e (x :: xs) = selMin (if entryLt x e then x else e) xs := rfl
      rw [hstep]
      refine Nat.le_trans (ih _) ?_
      by_cases hx : entryLt x e
      · exact Nat.le_trans (le_of_eq (congrArg Prod.fst (if_pos hx)))
          (entryLt_true_le hx)
      · exact le_of_eq (congrArg Prod.fst (if_neg hx))

theorem selMin_cost_le (e : DEntry) (l : List DEntry) :
    ∀ x ∈ e :: l, (selMin e l).1 ≤ x.1 := by
  induction l generalizing e with
  | nil =>
      intro x hx
      have hxe := List.mem_singleton.mp hx
      rw [hxe]
      exact Nat.le_refl _
  | cons y ys ih =>
      intro x hx
      have hstep : selMin e (y :: ys) = selMin (if entryLt y e then y else e) ys := rfl
      rw [hstep]
      rcases List.mem_cons.mp hx with heq | hx1
      · refine Nat.le_trans (selMin_cost_self _ _) ?_
        rw [heq]
        by_cases hy : entryLt y e
        · exact Nat.le_trans (le_of_eq (congrArg Prod.fst (if_pos hy)))
            (entryLt_true_le hy)
        · exact le_of_eq (congrArg Prod.fst (if_neg hy))
      · rcases List.mem_cons.mp hx1 with heq | hx2
        · refine Nat.le_trans (selMin_cost_self _ _) ?_
          rw [heq]
          by_cases hy : entryLt y e
          · exact le_of_eq (congrArg Prod.fst (if_pos hy))
          · have hy2 : entryLt y e = false := by simpa using hy
            exact Nat.le_trans (le_of_eq (congrArg Prod.fst (if_neg hy)))
              (entryLt_false_le hy2)
        · exact ih _ x (List.mem_cons_of_mem _ hx2)

theorem popMin_eq_none {l : List DEntry} (h : popMin l = none) : l = [] := by
  cases l with
  | nil => rfl
  | cons e es => simp [popMin] at h

theorem popMin_spec {l : List DEntry} {e : DEntry} {rest : List DEntry}
    (h : popMin l = some (e, rest)) :
    e ∈ l ∧ rest = l.erase e ∧ ∀ x ∈ l, e.1 ≤ x.1 := by
  cases l with
  | nil => simp [popMin] at h
  | cons a as =>
      simp only [popMin, Option.some.injEq, Prod.mk.injEq] at h
      obtain ⟨he, hr⟩ := h
      rw [← he, ← hr]
      exact ⟨selMin_mem a as, rfl, selMin_cost_le a as⟩

/-- Along any path that leaves the visited region (start inside, endpoint
outside), some edge crosses from a visited airport to an unvisited one,
and the path cost up to and including that edge is at most the whole
cost. -/
theorem firstCross (g : AirportGraph) (crit start : String)
    (visited : List String) (hstart : start ∈ visited) :
    ∀ z q d, PathTo g crit start z q d → z ∉ visited →
    ∃ y q1 d1 f, PathTo g crit start y q1 d1 ∧ y ∈ visited ∧
      f ∈ adj g y ∧ f.destination ∉ visited ∧ d1 + edge_cost crit f ≤ d := by
  intro z q d hpath
  induction hpath with
  | nil => intro hz; exact absurd hstart hz
  | @snoc v p c hp f hf ih =>
      intro hz
      by_cases hv : v ∈ visited
      · exact ⟨v, p, c, f, hp, hv, hf, hz, Nat.le_refl _⟩
      · obtain ⟨y, q1, d1, f1, h1, h2, h3, h4, h5⟩ := ih hv
        exact ⟨y, q1, d1, f1, h1, h2, h3, h4,
          Nat.le_trans h5 (Nat.le_add_right _ _)⟩

/-- The frontier and start-cover invariants put, under every path to an
unvisited airport, some queue entry at least as cheap. -/
theorem frontierCover (g : AirportGraph) (crit start : String)
    (pq : List DEntry) (visited : List String)
    (hfront : ∀ y ∈ visited, ∀ f ∈ adj g y, f.destination ∉ visited →
      ∃ e ∈ pq, e.2.1 = f.destination ∧
        ∀ q d, PathTo g crit start y q d → e.1 ≤ d + edge_cost crit f)
    (hstartc : start ∉ visited → ∃ e ∈ pq, e.2.1 = start ∧ e.1 = 0) :
    ∀ z q d, PathTo g crit start z q d → z ∉ visited →
      ∃ e ∈ pq, e.1 ≤ d := by
  intro z q d hpath hz
  by_cases hs : start ∈ visited
  · obtain ⟨y, q1, d1, f, h1, h2, h3, h4, h5⟩ :=
      firstCross g crit start visited hs z q d hpath hz
    obtain ⟨e, he, -, hcost⟩ := hfront y h2 f h3 h4
    exact ⟨e, he, Nat.le_trans (hcost q1 d1 h1) h5⟩
  · obtain ⟨e, he, -, hc0⟩ := hstartc hs
    refine ⟨e, he, ?_⟩
    rw [hc0]
    exact Nat.zero_le _

/-- The destination of any adjacency-list flight is in `allNodes`. -/
theorem dest_mem_allNodes (g : AirportGraph) (y : String) (f : Flight)
    (hf : f ∈ adj g y) : f.destination ∈ allNodes g := by
  rw [adj] at hf
  cases h : alookup g.flights y with
  | none =>
      rw [h] at hf
      cases hf
  | some l =>
      rw [h] at hf
      refine List.mem_append_right _ ?_
      exact List.mem_flatMap.mpr ⟨(y, l), mem_of_alookup_some h,
        List.mem_map.mpr ⟨f, hf, rfl⟩⟩

/-- No adjacency list is longer than the total edge count. -/
theorem adj_length_le_totalEdges (g : AirportGraph) (a : String) :
    (adj g a).length ≤ totalEdges g := by
  rw [adj]
  cases h : alookup g.flights a with
  | none => exact Nat.zero_le _
  | some l =>
      refine List.single_le_sum (fun x _ => Nat.zero_le x) _ ?_
      exact List.mem_map.mpr ⟨(a, l), mem_of_alookup_some h, rfl⟩

theorem filter_drop_head_length (v : String) (vis : List String)
    (hv : v ∉ vis) :
    ∀ l : List String, l.Nodup → v ∈ l →
      (l.filter fun x => decide (x ∉ v :: vis)).length + 1
        = (l.filter fun x => decide (x ∉ vis)).length := by
  intro l
  induction l with
  | nil => intro _ hvl; cases hvl
  | cons a as ih =>
      intro hnd hvl
      have hnd1 := List.nodup_cons.mp hnd
      rcases List.mem_cons.mp hvl with heq | hvl2
      · have hcong : ∀ x ∈ as,
            (decide (x ∉ v :: vis)) = (decide (x ∉ vis)) := by
          intro x hx
          have hne : x ≠ v := by
            intro hxv
            rw [heq] at hxv
            rw [hxv] at hx
            exact hnd1.1 hx
          rw [decide_eq_decide]
          simp [List.mem_cons, hne]
        rw [List.filter_cons_of_neg (by simp [← heq]),
          List.filter_cons_of_pos (by rw [heq] at hv; simp [hv]),
          List.filter_congr hcong, List.length_cons]
      · have hane : a ≠ v := by
          intro hav
          rw [hav] at hnd1
          exact hnd1.1 hvl2
        by_cases ha : a ∈ vis
        · rw [List.filter_cons_of_neg (by simp [List.mem_cons, ha]),
            List.filter_cons_of_neg (by simp [ha])]
          exact ih hnd1.2 hvl2
        · rw [List.filter_cons_of_pos (by simp [List.mem_cons, ha, hane]),
            List.filter_cons_of_pos (by simp [ha]), List.length_cons,
            List.length_cons]
          rw [← ih hnd1.2 hvl2]

/-- Visiting a fresh node from the population decreases the unvisited
count by one. -/
theorem unvisCount_cons (g : AirportGraph) (visited : List String)
    (v : String) (hvmem : v ∈ allNodes g) (hv : v ∉ visited) :
    unvisCount g (v :: visited) + 1 = unvisCount g visited :=
  filter_drop_head_length v visited hv (allNodes g).dedup
    (List.nodup_dedup _) (List.mem_dedup.mpr hvmem)

/-- The loop cannot run out of fuel while the fuel exceeds the measure
`pq.length + unvisited * (edges + 1)`. -/
theorem dijkstra_loop_fueled (g : AirportGraph) (crit endA : String) :
    ∀ fuel pq visited,
      (∀ e ∈ pq, e.2.1 ∈ allNodes g) →
      pq.length + unvisCount g visited * (totalEdges g + 1) < fuel →
      dijkstra_loop g endA crit fuel pq visited ≠ none := by
  intro fuel
  induction fuel with
  | zero => intro pq visited _ hm; exact absurd hm (Nat.not_lt_zero _)
  | succ fuel ih =>
      intro pq visited hn hm
      cases hpop : popMin pq with
      | none => simp [dijkstra_loop, hpop]
      | some pr =>
          obtain ⟨e, rest⟩ := pr
          obtain ⟨hemem, hrest, -⟩ := popMin_spec hpop
          have hpos : 0 < pq.length := List.length_pos_of_mem hemem
          have hlrest : rest.length + 1 = pq.length := by
            rw [hrest, List.length_erase_of_mem hemem]
            omega
          by_cases hv : e.2.1 ∈ visited
          · simp only [ne_eq, dijkstra_loop, hpop, if_pos hv]
            refine ih rest visited ?_ (by omega)
            intro x hx
            rw [hrest] at hx
            exact hn x (List.mem_of_mem_erase hx)
          · by_cases hend : e.2.1 = endA
            · simp only [ne_eq, dijkstra_loop, hpop, if_neg hv, if_pos hend]
              simp
            · simp only [ne_eq, dijkstra_loop, hpop, if_neg hv, if_neg hend]
              have hpushlen : ((adj g e.2.1).filterMap fun f =>
                  if f.destination ∈ e.2.1 :: visited then none
                  else some (e.1 + edge_cost crit f, f.destination,
                    e.2.2 ++ [f.destination])).length ≤ totalEdges g :=
                Nat.le_trans (List.length_filterMap_le _ _)
                  (adj_length_le_totalEdges g e.2.1)
              have hu : unvisCount g (e.2.1 :: visited) + 1
                  = unvisCount g visited :=
                unvisCount_cons g visited e.2.1 (hn e hemem) hv
              have hmul : unvisCount g visited * (totalEdges g + 1)
                  = unvisCount g (e.2.1 :: visited) * (totalEdges g + 1)
                    + (totalEdges g + 1) := by
                rw [← hu]
                ring
              refine ih _ _ ?_ ?_
              · intro x hx
                rcases List.mem_append.mp hx with h1 | h1
                · rw [hrest] at h1
                  exact hn x (List.mem_of_mem_erase h1)
                · obtain ⟨f, hf, hout⟩ := List.mem_filterMap.mp h1
                  by_cases hfd : f.destination ∈ e.2.1 :: visited
                  · rw [if_pos hfd] at hout
                    cases hout
                  · rw [if_neg hfd] at hout
                    have hx2 := Option.some.inj hout
                    rw [← hx2]
                    exact dest_mem_allNodes g e.2.1 f hf
              · rw [List.length_append]
                omega

/-- Soundness of the `while pq` loop under the invariant: a
`return path, current_cost` exit yields a real path of minimal cost to
the destination, and a fall-through exit means no path exists. -/
theorem dijkstra_loop_sound (g : AirportGraph) (crit start endA : String) :
    ∀ (fuel : Nat) (pq : List DEntry) (visited : List String),
      DInv g crit start endA pq visited →
      ∀ r, dijkstra_loop g endA crit fuel pq visited = some r →
        (∀ p c, r = some (p, c) → PathTo g crit start endA p c ∧
          ∀ q d, PathTo g crit start endA q d → c ≤ d) ∧
        (r = none → ∀ q d, ¬ PathTo g crit start endA q d) := by
  intro fuel
  induction fuel with
  | zero =>
      intro pq visited _ r hr
      simp [dijkstra_loop] at hr
  | succ fuel ih =>
      intro pq visited hInv r hr
      cases hpop : popMin pq with
      | none =>
          have hpq : pq = [] := popMin_eq_none hpop
          simp only [dijkstra_loop, hpop, Option.some.injEq] at hr
          constructor
          · intro p c hpc
            rw [← hr] at hpc
            cases hpc
          · intro _ q d hpath
            obtain ⟨e, he, -⟩ := frontierCover g crit start pq visited
              hInv.frontier hInv.startCover endA q d hpath hInv.endFree
            rw [hpq] at he
            cases he
      | some pr =>
          obtain ⟨e, rest⟩ := pr
          obtain ⟨hemem, hrest, hmin⟩ := popMin_spec hpop
          by_cases hv : e.2.1 ∈ visited
          · simp only [dijkstra_loop, hpop, if_pos hv] at hr
            refine ih rest visited ?_ r hr
            refine ⟨?_, ?_, ?_, hInv.endFree⟩
            · intro x hx
              rw [hrest] at hx
              exact hInv.paths x (List.mem_of_mem_erase hx)
            · intro y hy f hf hfd
              obtain ⟨e0, he0, hnode, hcost⟩ := hInv.frontier y hy f hf hfd
              have hne : e0 ≠ e := by
                intro h0
                rw [h0] at hnode
                rw [hnode] at hv
                exact hfd hv
              refine ⟨e0, ?_, hnode, hcost⟩
              rw [hrest]
              exact (List.mem_erase_of_ne hne).mpr he0
            · intro hs
              obtain ⟨e0, he0, hnode, hc0⟩ := hInv.startCover hs
              have hne : e0 ≠ e := by
                intro h0
                rw [h0] at hnode
                rw [hnode] at hv
                exact hs hv
              refine ⟨e0, ?_, hnode, hc0⟩
              rw [hrest]
              exact (List.mem_erase_of_ne hne).mpr he0
          · have hvmin : ∀ q d, PathTo g crit start e.2.1 q d → e.1 ≤ d := by
              intro q d hpath
              obtain ⟨e0, he0, hle⟩ := frontierCover g crit start pq visited
                hInv.frontier hInv.startCover e.2.1 q d hpath hv
              exact Nat.le_trans (hmin e0 he0) hle
            by_cases hend : e.2.1 = endA
            · simp only [dijkstra_loop, hpop, if_neg hv, if_pos hend,
                Option.some.injEq] at hr
              constructor
              · intro p c hpc
                rw [← hr] at hpc
                have hpc1 := Option.some.inj hpc
                have hp1 : p = e.2.2 := (congrArg Prod.fst hpc1).symm
                have hc1 : c = e.1 := (congrArg Prod.snd hpc1).symm
                rw [hp1, hc1]
                constructor
                · have := hInv.paths e hemem
                  rw [hend] at this
                  exact this
                · intro q d hpath
                  rw [← hend] at hpath
                  exact hvmin q d hpath
              · intro hrn
                rw [← hr] at hrn
                cases hrn
            · simp only [dijkstra_loop, hpop, if_neg hv, if_neg hend] at hr
              refine ih _ _ ?_ r hr
              refine ⟨?_, ?_, ?_, ?_⟩
              · intro x hx
                rcases List.mem_append.mp hx with h1 | h1
                · rw [hrest] at h1
                  exact hInv.paths x (List.mem_of_mem_erase h1)
                · obtain ⟨f, hf, hout⟩ := List.mem_filterMap.mp h1
                  by_cases hfd : f.destination ∈ e.2.1 :: visited
                  · rw [if_pos hfd] at hout
                    cases hout
                  · rw [if_neg hfd] at hout
                    have hx2 := Option.some.inj hout
                    rw [← hx2]
                    exact PathTo.snoc (hInv.paths e hemem) f hf
              · intro y hy f hf hfd
                have hfd1 : f.destination ∉ visited ∧ f.destination ≠ e.2.1 := by
                  simp only [List.mem_cons, not_or] at hfd
                  exact ⟨hfd.2, hfd.1⟩
                rcases List.mem_cons.mp hy with hy1 | hy2
                · refine ⟨(e.1 + edge_cost crit f, f.destination,
                    e.2.2 ++ [f.destination]), ?_, rfl, ?_⟩
                  · refine List.mem_append_right _ ?_
                    refine List.mem_filterMap.mpr ⟨f, ?_, ?_⟩
                    · rw [← hy1]
                      exact hf
                    · rw [if_neg hfd]
                  · intro q d hpath
                    rw [hy1] at hpath
                    exact Nat.add_le_add_right (hvmin q d hpath) _
                · obtain ⟨e0, he0, hnode, hcost⟩ :=
                    hInv.frontier y hy2 f hf hfd1.1
                  have hne : e0 ≠ e := by
                    intro h0
                    rw [h0] at hnode
                    exact hfd1.2 hnode.symm
                  refine ⟨e0, ?_, hnode, hcost⟩
                  refine List.mem_append_left _ ?_
                  rw [hrest]
                  exact (List.mem_erase_of_ne hne).mpr he0
              · intro hs
                have hs1 : start ∉ visited ∧ start ≠ e.2.1 := by
                  simp only [List.mem_cons, not_or] at hs
                  exact ⟨hs.2, hs.1⟩
                obtain ⟨e0, he0, hnode, hc0⟩ := hInv.startCover hs1.1
                have hne : e0 ≠ e := by
                  intro h0
                  rw [h0] at hnode
                  exact hs1.2 hnode.symm
                refine ⟨e0, ?_, hnode, hc0⟩
                refine List.mem_append_left _ ?_
                rw [hrest]
                exact (List.mem_erase_of_ne hne).mpr he0
              · intro hmem
                rcases List.mem_cons.mp hmem with h1 | h1
                · exact hend h1.symm
                · exact hInv.endFree h1

/-- C3: `dijkstra_shortest_path` is optimal: for every flight multigraph,
airports and criterion, an unknown origin or destination yields the
`None, float('inf')` result; a returned `(path, cost)` is a real path
from origin to destination whose cost is minimal over all paths (no path
has strictly lower total cost under the chosen edge weights); and with
both airports known, the `None` result means no path exists at all. -/
theorem c3_dijkstra_optimal (g : AirportGraph) (start endA criteria : String) :
    ((start ∉ g.airports ∨ endA ∉ g.airports) →
      dijkstra_shortest_path g start endA criteria = none) ∧
    (∀ p c, dijkstra_shortest_path g start endA criteria = some (p, c) →
      PathTo g criteria start endA p c ∧
      ∀ q d, PathTo g criteria start endA q d → c ≤ d) ∧
    (start ∈ g.airports → endA ∈ g.airports →
      dijkstra_shortest_path g start endA criteria = none →
      ∀ q d, ¬ PathTo g criteria start endA q d) := by
  by_cases hknown : start ∉ g.airports ∨ endA ∉ g.airports
  · have hval : dijkstra_shortest_path g start endA criteria = none := by
      rw [dijkstra_shortest_path, if_pos hknown]
    refine ⟨fun _ => hval, ?_, ?_⟩
    · intro p c hpc
      rw [hval] at hpc
      cases hpc
    · intro hs he
      rcases hknown with h | h
      · exact absurd hs h
      · exact absurd he h
  · push_neg at hknown
    have hknown2 : ¬(start ∉ g.airports ∨ endA ∉ g.airports) := by
      push_neg
      exact hknown
    have hInv0 : DInv g criteria start endA [(0, start, [start])] [] := by
      refine ⟨?_, ?_, ?_, ?_⟩
      · intro e he
        have := List.mem_singleton.mp he
        rw [this]
        exact PathTo.nil
      · intro y hy
        cases hy
      · intro _
        exact ⟨(0, start, [start]), List.mem_singleton.mpr rfl, rfl, rfl⟩
      · intro h
        cases h
    have hfuel : dijkstra_loop g endA criteria (bigFuel g)
        [(0, start, [start])] [] ≠ none := by
      refine dijkstra_loop_fueled g criteria endA (bigFuel g) _ [] ?_ ?_
      · intro e he
        have := List.mem_singleton.mp he
        rw [this]
        exact List.mem_append_left _ hknown.1
      · have h1 : (allNodes g).dedup.length ≤ (allNodes g).length :=
          (List.dedup_sublist _).length_le
        have h2 : unvisCount g ([] : List String) = (allNodes g).dedup.length := by
          rw [unvisCount]
          have : ∀ x ∈ (allNodes g).dedup,
              (decide (x ∉ ([] : List String))) = true := by
            intro x _
            simp
          rw [List.filter_eq_self.mpr this]
        have h3 : (allNodes g).dedup.length * (totalEdges g + 1)
            ≤ (allNodes g).length * (totalEdges g + 1) :=
          Nat.mul_le_mul_right _ h1
        rw [bigFuel, List.length_singleton, h2]
        omega
    cases hloop : dijkstra_loop g endA criteria (bigFuel g)
        [(0, start, [start])] [] with
    | none => exact absurd hloop hfuel
    | some rr =>
        have hds : dijkstra_shortest_path g start endA criteria = rr := by
          rw [dijkstra_shortest_path, if_neg hknown2, hloop]
        obtain ⟨hsome, hnone⟩ := dijkstra_loop_sound g criteria start endA
          (bigFuel g) [(0, start, [start])] [] hInv0 rr hloop
        refine ⟨?_, ?_, ?_⟩
        · intro hk
          rcases hk with h | h
          · exact absurd hknown.1 h
          · exact absurd hknown.2 h
        · intro p c hpc
          rw [hds] at hpc
          exact hsome p c hpc
        · intro _ _ hn2 q d hpath
          rw [hds] at hn2
          exact hnone hn2 q d hpath

/-- Closed instance of `c3_dijkstra_optimal` on Scenario B: the evaluated
result for NYC to LAX by distance is the two-edge path at cost 2535, and
the theorem certifies it as a real path (its minimality is the theorem's
second conjunct at the same input). -/
theorem c3_dijkstra_optimal_witness :
    dijkstra_shortest_path scenarioGraph "NYC" "LAX" "distance"
      = some (["NYC", "CHI", "LAX"], 2535) ∧
    PathTo scenarioGraph "distance" "NYC" "LAX" ["NYC", "CHI", "LAX"] 2535 :=
  ⟨rfl, ((c3_dijkstra_optimal scenarioGraph "NYC" "LAX" "distance").2.1
    ["NYC", "CHI", "LAX"] 2535 rfl).1⟩
